import Mathlib

/-!
Verification of the `PriorityExpiryCache` implementation (src/index.ts).

The TypeScript class keeps four mutable structures:
  * `items`    : a `Map<string, Item<T>>` (the Entry Table; iteration order =
                 insertion order, and the code always deletes a key before
                 re-adding it, so the map is modelled by an association list
                 to which fresh keys are appended);
  * `numItems` : a separate number counting the entries;
  * `expTree`  : an AVL tree keyed by distinct `expTime` values, each node
                 holding a doubly-linked list of the items sharing that
                 `expTime` (new members are inserted at the head);
  * `priorityTree` : an AVL tree keyed by distinct `priority` values, each
                 node holding a doubly-linked list of the items sharing that
                 priority, ordered LRU (head) to MRU (tail).

An AVL tree keyed by integers is modelled by its inorder listing: a list of
`(key, group)` pairs strictly sorted by key, so `min()` is `head?`,
`findKey` is `find?`, and inserting a fresh key is ordered insertion.
A doubly-linked list of items is modelled by a `List (Item T)`; removing the
node of an item is `eraseP` on its (unique) key, `insertFirst` is `cons`,
`insertLast` is append.  The back-references each item keeps into its two
group lists (`itemListSameExp` / `itemListSamePrio` and their nodes) are
represented implicitly: the group an item's reference points to is the group
stored in the tree at that item's `expTime` / `priority`.

Numbers (`maxItems`, `mockTime`, `numItems`, `expTime`, `priority`) are
JavaScript numbers used only integrally here; they are modelled by `Int`.
-/

/-- One cached item (src/index.ts `interface Item<T>`): the user-provided
key, value, expiration time and priority. -/
structure Item (T : Type) where
  key : String
  value : T
  expTime : Int
  priority : Int
deriving DecidableEq, Repr

/-- The inorder listing of one of the AVL trees: `(key, group)` pairs,
strictly sorted by the integer key. -/
abbrev GroupTree (T : Type) := List (Int × List (Item T))

/-- `AvlTree.findKey` : the group stored at key `k`, if present. -/
def treeFindKey {T : Type} (t : GroupTree T) (k : Int) : Option (List (Item T)) :=
  (t.find? (fun p => p.1 == k)).map (fun p => p.2)

/-- `AvlTree.insert` of a node with a key not yet in the tree:
ordered insertion into the inorder listing. -/
def treeInsert {T : Type} (t : GroupTree T) (k : Int) (g : List (Item T)) : GroupTree T :=
  match t with
  | [] => [(k, g)]
  | p :: rest => if k < p.1 then (k, g) :: p :: rest else p :: treeInsert rest k g

/-- Mutation of the group list held by the tree node at key `k`
(the source mutates the linked list in place through the node's value). -/
def treeReplace {T : Type} (t : GroupTree T) (k : Int) (g : List (Item T)) : GroupTree T :=
  match t with
  | [] => []
  | p :: rest => if p.1 == k then (k, g) :: rest else p :: treeReplace rest k g

/-- Removal of the item with key `ikey` from the group at tree key `k`,
followed by `AvlTree.removeNode` when the group becomes empty
(src/index.ts `updateExpTreeAndLinkedListForItemRemoval` /
`updatePriorityTreeAndLinkedListForItemRemoval`, generic part). -/
def treeRemoveItem {T : Type} (t : GroupTree T) (k : Int) (ikey : String) : GroupTree T :=
  match t with
  | [] => []
  | (k', g) :: rest =>
    if k' == k then
      let g' := g.eraseP (fun it => it.key == ikey)
      if g'.isEmpty then rest else (k', g') :: rest
    else (k', g) :: treeRemoveItem rest k ikey

/-- `Map.get` on the Entry Table. -/
def mapGet {T : Type} (l : List (String × Item T)) (k : String) : Option (Item T) :=
  (l.find? (fun p => p.1 == k)).map (fun p => p.2)

/-- The cache state (the private fields of class `PriorityExpiryCache<T>`). -/
structure PriorityExpiryCache (T : Type) where
  maxItems : Int
  mockTime : Int
  items : List (String × Item T)
  numItems : Int
  expTree : GroupTree T
  priorityTree : GroupTree T
deriving DecidableEq, Repr

namespace PriorityExpiryCache

variable {T : Type}

/-- `new PriorityExpiryCache(maxItems)` : all structures empty, `mockTime = 0`.
The constructor performs no validation of `maxItems`. -/
def create (T : Type) (maxItems : Int) : PriorityExpiryCache T :=
  { maxItems := maxItems, mockTime := 0, items := [], numItems := 0,
    expTree := [], priorityTree := [] }

/-- src/index.ts `updateExpTreeAndLinkedListForExpTime`: if the item's
`expTime` is new, insert a fresh tree node whose list holds only this item;
otherwise `insertFirst` the item into the existing node's list. -/
def updateExpTreeAndLinkedListForExpTime (t : GroupTree T) (item : Item T) : GroupTree T :=
  match treeFindKey t item.expTime with
  | none => treeInsert t item.expTime [item]
  | some g => treeReplace t item.expTime (item :: g)

/-- src/index.ts `updatePriorityTreeAndLinkedListForPriority`: if the item's
`priority` is new, insert a fresh tree node whose list holds only this item;
otherwise `insertLast` the item (tail = most recently used). -/
def updatePriorityTreeAndLinkedListForPriority (t : GroupTree T) (item : Item T) : GroupTree T :=
  match treeFindKey t item.priority with
  | none => treeInsert t item.priority [item]
  | some g => treeReplace t item.priority (g ++ [item])

/-- src/index.ts `updateExpTreeAndLinkedListForItemRemoval`. -/
def updateExpTreeAndLinkedListForItemRemoval (t : GroupTree T) (item : Item T) : GroupTree T :=
  treeRemoveItem t item.expTime item.key

/-- src/index.ts `updatePriorityTreeAndLinkedListForItemRemoval`. -/
def updatePriorityTreeAndLinkedListForItemRemoval (t : GroupTree T) (item : Item T) : GroupTree T :=
  treeRemoveItem t item.priority item.key

/-- src/index.ts `addItem` (private): add to both trees, increment the
count, and add to the Entry Table (the key is absent whenever this runs,
so `Map.set` appends in iteration order). -/
def addItem (c : PriorityExpiryCache T) (key : String) (value : T)
    (priority : Int) (expireTime : Int) : PriorityExpiryCache T :=
  let item : Item T := { key := key, value := value, expTime := expireTime, priority := priority }
  { c with
    expTree := updateExpTreeAndLinkedListForExpTime c.expTree item,
    priorityTree := updatePriorityTreeAndLinkedListForPriority c.priorityTree item,
    numItems := c.numItems + 1,
    items := c.items ++ [(key, item)] }

/-- src/index.ts `deleteItem` (private): remove from both trees, decrement
the count, and delete from the Entry Table. -/
def deleteItem (c : PriorityExpiryCache T) (item : Item T) : PriorityExpiryCache T :=
  { c with
    expTree := updateExpTreeAndLinkedListForItemRemoval c.expTree item,
    priorityTree := updatePriorityTreeAndLinkedListForItemRemoval c.priorityTree item,
    numItems := c.numItems - 1,
    items := c.items.filter (fun p => !(p.1 == item.key)) }

/-- The `get` step that moves a (present, unexpired) item's node to the tail
of its priority group's list: `remove` the node from the list referenced by
the item, then `insertLast` it.  The `none` branch corresponds to the
source's null-guard on the cached references (never taken for items that
are in the cache). -/
def markMostRecentlyUsed (t : GroupTree T) (item : Item T) : GroupTree T :=
  match treeFindKey t item.priority with
  | none => t
  | some g => treeReplace t item.priority ((g.eraseP (fun it => it.key == item.key)) ++ [item])

/-- src/index.ts `get`: look the key up; if present and `expTime > mockTime`,
move the item to MRU in its priority group and return its value; otherwise
return `undefined` (here `none`) and leave the cache untouched. -/
def get (c : PriorityExpiryCache T) (key : String) : Option T × PriorityExpiryCache T :=
  match mapGet c.items key with
  | some item =>
    if c.mockTime < item.expTime then
      (some item.value, { c with priorityTree := markMostRecentlyUsed c.priorityTree item })
    else (none, c)
  | none => (none, c)

/-- The eviction-selection logic inlined in src/index.ts `set` (lines
150-183): take the minimum node of `expTree`; if its `expTime` has been
reached, the victim is the head of that node's list; otherwise the victim is
the head (LRU) of the minimum `priorityTree` node's list.  `none` means the
corresponding null-guard in the source skips the eviction. -/
def evictSelect (c : PriorityExpiryCache T) : Option (Item T) :=
  match c.expTree.head? with
  | none => none
  | some (e, g) =>
    if e ≤ c.mockTime then g.head?
    else
      match c.priorityTree.head? with
      | none => none
      | some pg => pg.2.head?

/-- src/index.ts `set`: if the key is present, delete and re-add (replace
semantics); otherwise, when `numItems >= maxItems`, delete the selected
eviction victim (if any), then add the new item. -/
def set (c : PriorityExpiryCache T) (key : String) (value : T)
    (priority : Int) (expireTime : Int) : PriorityExpiryCache T :=
  match mapGet c.items key with
  | some item => addItem (deleteItem c item) key value priority expireTime
  | none =>
    let c' :=
      if c.maxItems ≤ c.numItems then
        match evictSelect c with
        | some itemToEvict => deleteItem c itemToEvict
        | none => c
      else c
    addItem c' key value priority expireTime

/-- src/index.ts `setMockTime`. -/
def setMockTime (c : PriorityExpiryCache T) (t : Int) : PriorityExpiryCache T :=
  { c with mockTime := t }

end PriorityExpiryCache

/-- One public mutating operation of the cache. -/
inductive Op (T : Type) where
  | get (key : String)
  | set (key : String) (value : T) (priority : Int) (expireTime : Int)
  | setMockTime (t : Int)
deriving DecidableEq, Repr

/-- The state transition of one operation (`get`'s returned value is
discarded; only its side effect on the state remains). -/
def applyOp {T : Type} (c : PriorityExpiryCache T) : Op T → PriorityExpiryCache T
  | .get k => (PriorityExpiryCache.get c k).2
  | .set k v p e => PriorityExpiryCache.set c k v p e
  | .setMockTime t => PriorityExpiryCache.setMockTime c t

/-- Run a sequence of operations from a state. -/
def runOps {T : Type} (c : PriorityExpiryCache T) : List (Op T) → PriorityExpiryCache T
  | [] => c
  | op :: ops => runOps (applyOp c op) ops

/-- A state is reachable when some sequence of `get` / `set` / `setMockTime`
operations produces it from a freshly constructed cache. -/
def Reachable {T : Type} (c : PriorityExpiryCache T) : Prop :=
  ∃ (maxItems : Int) (ops : List (Op T)), c = runOps (PriorityExpiryCache.create T maxItems) ops

/-! ### Basic lemmas about the tree and Entry-Table primitives -/

/-- All items held in all groups of a tree, in tree order. -/
def treeItems {T : Type} (t : GroupTree T) : List (Item T) :=
  t.flatMap (fun p => p.2)

theorem treeItems_nil {T : Type} : treeItems ([] : GroupTree T) = [] := rfl

theorem treeItems_cons {T : Type} (p : Int × List (Item T)) (t : GroupTree T) :
    treeItems (p :: t) = p.2 ++ treeItems t := by
  simp [treeItems]

theorem treeItems_append {T : Type} (t₁ t₂ : GroupTree T) :
    treeItems (t₁ ++ t₂) = treeItems t₁ ++ treeItems t₂ := by
  simp [treeItems]

theorem mem_treeItems {T : Type} {t : GroupTree T} {it : Item T} :
    it ∈ treeItems t ↔ ∃ p ∈ t, it ∈ p.2 := by
  simp [treeItems]

theorem treeFindKey_none {T : Type} {t : GroupTree T} {k : Int} :
    treeFindKey t k = none ↔ ∀ p ∈ t, p.1 ≠ k := by
  simp [treeFindKey, List.find?_eq_none]

theorem treeFindKey_some_mem {T : Type} {t : GroupTree T} {k : Int} {g : List (Item T)}
    (h : treeFindKey t k = some g) : (k, g) ∈ t := by
  unfold treeFindKey at h
  cases hf : t.find? (fun p => p.1 == k) with
  | none => rw [hf] at h; simp at h
  | some q =>
    rw [hf] at h
    simp at h
    have hq := List.find?_some hf
    have hmem := List.mem_of_find?_eq_some hf
    simp at hq
    have : (k, g) = q := by
      cases q with
      | mk a b => simp_all
    rw [this]; exact hmem

theorem mapGet_none {T : Type} {l : List (String × Item T)} {k : String} :
    mapGet l k = none ↔ ∀ p ∈ l, p.1 ≠ k := by
  simp [mapGet, List.find?_eq_none]

theorem mapGet_some_mem {T : Type} {l : List (String × Item T)} {k : String} {it : Item T}
    (h : mapGet l k = some it) : (k, it) ∈ l := by
  unfold mapGet at h
  cases hf : l.find? (fun p => p.1 == k) with
  | none => rw [hf] at h; simp at h
  | some q =>
    rw [hf] at h
    simp at h
    have hq := List.find?_some hf
    have hmem := List.mem_of_find?_eq_some hf
    simp at hq
    have : (k, it) = q := by
      cases q with
      | mk a b => simp_all
    rw [this]; exact hmem

theorem mapGet_cons {T : Type} {p : String × Item T} {l : List (String × Item T)} {k : String} :
    mapGet (p :: l) k = if p.1 = k then some p.2 else mapGet l k := by
  by_cases h : p.1 = k <;> simp [mapGet, List.find?_cons, h]

theorem mapGet_append {T : Type} (l₁ l₂ : List (String × Item T)) (k : String) :
    mapGet (l₁ ++ l₂) k = (mapGet l₁ k).or (mapGet l₂ k) := by
  simp [mapGet, List.find?_append]
  cases l₁.find? (fun p => p.1 == k) <;> simp

theorem mapGet_append_single_self {T : Type} {l : List (String × Item T)} {k : String}
    {it : Item T} (h : mapGet l k = none) : mapGet (l ++ [(k, it)]) k = some it := by
  rw [mapGet_append, h]; simp [mapGet]

theorem mapGet_append_single_ne {T : Type} {l : List (String × Item T)} {k k' : String}
    {it : Item T} (h : k' ≠ k) : mapGet (l ++ [(k, it)]) k' = mapGet l k' := by
  rw [mapGet_append]
  have : mapGet [(k, it)] k' = none := by simp [mapGet, Ne.symm h]
  rw [this]
  cases mapGet l k' <;> simp

theorem mapGet_filter_self {T : Type} (l : List (String × Item T)) (k : String) :
    mapGet (l.filter (fun p => !(p.1 == k))) k = none := by
  rw [mapGet_none]
  intro p hp
  have := (List.mem_filter.mp hp).2
  simpa using this

theorem mapGet_filter_ne {T : Type} (l : List (String × Item T)) {k k' : String}
    (h : k' ≠ k) : mapGet (l.filter (fun p => !(p.1 == k))) k' = mapGet l k' := by
  induction l with
  | nil => rfl
  | cons p rest ih =>
    by_cases hp : p.1 = k
    · have hk' : p.1 ≠ k' := by rw [hp]; exact Ne.symm h
      have hfc : (p :: rest).filter (fun p => !(p.1 == k)) =
          rest.filter (fun p => !(p.1 == k)) := by
        simp [List.filter_cons, hp]
      rw [hfc, ih, mapGet_cons, if_neg hk']
    · have hfc : (p :: rest).filter (fun p => !(p.1 == k)) =
          p :: rest.filter (fun p => !(p.1 == k)) := by
        simp [List.filter_cons, hp]
      rw [hfc, mapGet_cons, mapGet_cons, ih]

theorem filter_ne_of_mapGet_none {T : Type} {l : List (String × Item T)} {k : String}
    (h : mapGet l k = none) : l.filter (fun p => !(p.1 == k)) = l := by
  rw [List.filter_eq_self]
  intro p hp
  have := mapGet_none.mp h p hp
  simpa using this

theorem mem_mapGet {T : Type} {l : List (String × Item T)} {k : String} {it : Item T}
    (hnd : (l.map Prod.fst).Nodup) (h : (k, it) ∈ l) : mapGet l k = some it := by
  induction l with
  | nil => simp at h
  | cons p rest ih =>
    rw [List.map_cons, List.nodup_cons] at hnd
    rcases List.mem_cons.mp h with heq | hmem
    · rw [← heq]; simp [mapGet_cons]
    · have hk : k ∈ rest.map Prod.fst := List.mem_map.mpr ⟨(k, it), hmem, rfl⟩
      have hp1 : p.1 ≠ k := by
        intro hcontra
        rw [hcontra] at hnd
        exact hnd.1 hk
      rw [mapGet_cons, if_neg hp1]
      exact ih hnd.2 hmem

theorem mapGet_filter_length {T : Type} {l : List (String × Item T)} {k : String} {it : Item T}
    (hnd : (l.map Prod.fst).Nodup) (h : mapGet l k = some it) :
    (l.filter (fun p => !(p.1 == k))).length + 1 = l.length := by
  induction l with
  | nil => simp [mapGet] at h
  | cons p rest ih =>
    rw [mapGet_cons] at h
    rw [List.map_cons, List.nodup_cons] at hnd
    by_cases hp : p.1 = k
    · rw [if_pos hp] at h
      have hknot : k ∉ rest.map Prod.fst := by
        have := hnd.1
        rwa [hp] at this
      have hrest : rest.filter (fun p => !(p.1 == k)) = rest := by
        rw [List.filter_eq_self]
        intro q hq
        have : q.1 ≠ k := fun hc => hknot (List.mem_map.mpr ⟨q, hq, hc⟩)
        simpa using this
      simp [List.filter_cons, hp, hrest]
    · rw [if_neg hp] at h
      have := ih hnd.2 h
      simp [List.filter_cons, hp]
      omega

theorem treeFindKey_cons {T : Type} {p : Int × List (Item T)} {t : GroupTree T} {k : Int} :
    treeFindKey (p :: t) k = if p.1 = k then some p.2 else treeFindKey t k := by
  by_cases h : p.1 = k <;> simp [treeFindKey, List.find?_cons, h]

theorem treeInsert_perm {T : Type} (t : GroupTree T) (k : Int) (g : List (Item T)) :
    (treeInsert t k g).Perm ((k, g) :: t) := by
  induction t with
  | nil => simp [treeInsert]
  | cons p rest ih =>
    by_cases h : k < p.1
    · simp [treeInsert, h]
    · rw [treeInsert, if_neg h]
      exact (ih.cons p).trans (List.Perm.swap _ _ _)

theorem treeItems_treeInsert {T : Type} (t : GroupTree T) (k : Int) (g : List (Item T)) :
    (treeItems (treeInsert t k g)).Perm (g ++ treeItems t) := by
  induction t with
  | nil => simp [treeInsert, treeItems]
  | cons p rest ih =>
    by_cases h : k < p.1
    · simp [treeInsert, h, treeItems_cons, List.append_assoc]
    · rw [treeInsert, if_neg h, treeItems_cons, treeItems_cons]
      refine (ih.append_left p.2).trans ?_
      have h1 : p.2 ++ (g ++ treeItems rest) = (p.2 ++ g) ++ treeItems rest := by
        rw [List.append_assoc]
      have h2 : g ++ (p.2 ++ treeItems rest) = (g ++ p.2) ++ treeItems rest := by
        rw [List.append_assoc]
      rw [h1, h2]
      exact List.perm_append_comm.append_right _

theorem mem_treeInsert {T : Type} {t : GroupTree T} {k : Int} {g : List (Item T)}
    {p : Int × List (Item T)} :
    p ∈ treeInsert t k g ↔ p = (k, g) ∨ p ∈ t := by
  rw [(treeInsert_perm t k g).mem_iff, List.mem_cons]

theorem treeInsert_sorted {T : Type} {t : GroupTree T} {k : Int} {g : List (Item T)}
    (hs : (t.map Prod.fst).Pairwise (· < ·)) (hfresh : ∀ p ∈ t, p.1 ≠ k) :
    ((treeInsert t k g).map Prod.fst).Pairwise (· < ·) := by
  induction t with
  | nil => simp [treeInsert]
  | cons p rest ih =>
    rw [List.map_cons, List.pairwise_cons] at hs
    by_cases h : k < p.1
    · rw [treeInsert, if_pos h]
      rw [List.map_cons, List.pairwise_cons]
      constructor
      · intro a ha
        rw [List.map_cons, List.mem_cons] at ha
        rcases ha with rfl | ha
        · exact h
        · exact h.trans (hs.1 a ha)
      · rw [List.map_cons, List.pairwise_cons]
        exact hs
    · have hk : p.1 < k := by
        rcases lt_trichotomy k p.1 with hlt | heq | hgt
        · exact absurd hlt h
        · exact absurd heq.symm (hfresh p (List.mem_cons_self p rest))
        · exact hgt
      rw [treeInsert, if_neg h, List.map_cons, List.pairwise_cons]
      constructor
      · intro a ha
        rw [List.mem_map] at ha
        obtain ⟨q, hq, rfl⟩ := ha
        rcases mem_treeInsert.mp hq with rfl | hq'
        · exact hk
        · exact hs.1 q.1 (List.mem_map.mpr ⟨q, hq', rfl⟩)
      · exact ih hs.2 (fun q hq => hfresh q (List.mem_cons_of_mem p hq))

theorem treeReplace_decomp {T : Type} {t : GroupTree T} {k : Int} {g : List (Item T)}
    (g' : List (Item T)) (h : treeFindKey t k = some g) :
    ∃ t₁ t₂, t = t₁ ++ (k, g) :: t₂ ∧ (∀ p ∈ t₁, p.1 ≠ k) ∧
      treeReplace t k g' = t₁ ++ (k, g') :: t₂ := by
  induction t with
  | nil => simp [treeFindKey] at h
  | cons p rest ih =>
    rw [treeFindKey_cons] at h
    by_cases hp : p.1 = k
    · rw [if_pos hp] at h
      refine ⟨[], rest, ?_, by simp, ?_⟩
      · cases p with
        | mk a b =>
          simp at hp h
          simp [hp, h]
      · rw [treeReplace, if_pos (by simpa using hp)]
        simp
    · rw [if_neg hp] at h
      obtain ⟨t₁, t₂, heq, hne, hrep⟩ := ih h
      refine ⟨p :: t₁, t₂, by rw [heq]; simp, ?_, ?_⟩
      · intro q hq
        rcases List.mem_cons.mp hq with rfl | hq'
        · exact hp
        · exact hne q hq'
      · rw [treeReplace, if_neg (by simpa using hp), hrep]
        simp

theorem treeRemoveItem_decomp {T : Type} {t : GroupTree T} {k : Int} {g : List (Item T)}
    (ikey : String) (h : treeFindKey t k = some g) :
    ∃ t₁ t₂, t = t₁ ++ (k, g) :: t₂ ∧ (∀ p ∈ t₁, p.1 ≠ k) ∧
      treeRemoveItem t k ikey =
        t₁ ++ (if (g.eraseP (fun it => it.key == ikey)).isEmpty then t₂
               else (k, g.eraseP (fun it => it.key == ikey)) :: t₂) := by
  induction t with
  | nil => simp [treeFindKey] at h
  | cons p rest ih =>
    rw [treeFindKey_cons] at h
    by_cases hp : p.1 = k
    · rw [if_pos hp] at h
      cases p with
      | mk a b =>
        have ha : a = k := by simpa using hp
        have hb : b = g := by simpa using h
        refine ⟨[], rest, by simp [ha, hb], by simp, ?_⟩
        rw [ha, hb, treeRemoveItem]
        simp
    · rw [if_neg hp] at h
      obtain ⟨t₁, t₂, heq, hne, hrem⟩ := ih h
      refine ⟨p :: t₁, t₂, by rw [heq]; simp, ?_, ?_⟩
      · intro q hq
        rcases List.mem_cons.mp hq with rfl | hq'
        · exact hp
        · exact hne q hq'
      · cases p with
        | mk a b =>
          rw [treeRemoveItem]
          simp only at hp
          rw [if_neg (by simpa using hp), hrem]
          simp

theorem treeRemoveItem_of_none {T : Type} {t : GroupTree T} {k : Int} (ikey : String)
    (h : treeFindKey t k = none) : treeRemoveItem t k ikey = t := by
  induction t with
  | nil => rfl
  | cons p rest ih =>
    rw [treeFindKey_cons] at h
    by_cases hp : p.1 = k
    · rw [if_pos hp] at h; simp at h
    · rw [if_neg hp] at h
      cases p with
      | mk a b =>
        rw [treeRemoveItem]
        simp only at hp
        rw [if_neg (by simpa using hp), ih h]

/-! ### Erasure of an item with a unique key from a group list -/

theorem eraseP_key_perm {T : Type} {g : List (Item T)} {it : Item T} (hmem : it ∈ g)
    (huniq : ∀ x ∈ g, x.key = it.key → x = it) :
    g.Perm (it :: g.eraseP (fun x => x.key == it.key)) := by
  obtain ⟨a, l₁, l₂, hl₁, hpa, hg, he⟩ :=
    @List.exists_of_eraseP _ (fun x => x.key == it.key) g it hmem (by simp)
  have hamem : a ∈ g := by
    rw [hg]; exact List.mem_append_right _ (List.mem_cons_self _ _)
  have ha : a = it := huniq a hamem (by simpa using hpa)
  rw [he, hg, ha]
  exact List.perm_middle

theorem eraseP_key_not_mem {T : Type} {g : List (Item T)} {kk : String}
    (hnd : (g.map (fun x => x.key)).Nodup) :
    ∀ x ∈ g.eraseP (fun x => x.key == kk), x.key ≠ kk := by
  by_cases hex : ∃ y ∈ g, y.key = kk
  · obtain ⟨y, hy, hyk⟩ := hex
    obtain ⟨a, l₁, l₂, hl₁, hpa, hg, he⟩ :=
      @List.exists_of_eraseP _ (fun x => x.key == kk) g y hy (by simp [hyk])
    have hak : a.key = kk := by simpa using hpa
    rw [hg, List.map_append, List.map_cons] at hnd
    rw [he]
    intro x hx hxk
    rcases List.mem_append.mp hx with h1 | h2
    · exact (by simpa [hxk] using hl₁ x h1)
    · have hmem2 : a.key ∈ List.map (fun x => x.key) l₂ :=
        List.mem_map.mpr ⟨x, h2, by rw [hxk, hak]⟩
      have hnd2 := (List.nodup_append.mp hnd).2.1
      exact (List.nodup_cons.mp hnd2).1 hmem2
  · push_neg at hex
    rw [List.eraseP_of_forall_not (by intro a ha; simpa using hex a ha)]
    intro x hx
    exact hex x hx

/-! ### Well-formedness of the cache structures

`TreeWF keyOf t items` states that the inorder listing `t` of one of the two
AVL trees is consistent with the Entry Table `items`: strictly sorted keys,
no empty group, every group member carries the group's key value, every
group member is exactly the entry the table stores under its string key,
every table entry is in some group, the total group population equals the
table size, and no string key occurs twice across all groups. -/

structure TreeWF {T : Type} (keyOf : Item T → Int) (t : GroupTree T)
    (items : List (String × Item T)) : Prop where
  sorted : (t.map Prod.fst).Pairwise (· < ·)
  groups_ne : ∀ p ∈ t, p.2 ≠ []
  member_key : ∀ p ∈ t, ∀ it ∈ p.2, keyOf it = p.1
  member_mapGet : ∀ p ∈ t, ∀ it ∈ p.2, mapGet items it.key = some it
  items_mem : ∀ q ∈ items, ∃ p ∈ t, q.2 ∈ p.2
  count : (treeItems t).length = items.length
  keys_nodup : ((treeItems t).map (fun it => it.key)).Nodup

theorem treeFindKey_of_mem_sorted {T : Type} {t : GroupTree T} {k : Int} {g : List (Item T)}
    (hs : (t.map Prod.fst).Pairwise (· < ·)) (hmem : (k, g) ∈ t) :
    treeFindKey t k = some g := by
  induction t with
  | nil => simp at hmem
  | cons p rest ih =>
    rw [List.map_cons, List.pairwise_cons] at hs
    rcases List.mem_cons.mp hmem with heq | hmem'
    · rw [treeFindKey_cons, ← heq]
      simp
    · have hk : p.1 < k := hs.1 k (List.mem_map.mpr ⟨(k, g), hmem', rfl⟩)
      rw [treeFindKey_cons, if_neg (by exact fun hc => absurd hc (ne_of_gt hk).symm)]
      exact ih hs.2 hmem'

theorem TreeWF.mem_treeItems_mapGet {T : Type} {keyOf : Item T → Int} {t : GroupTree T}
    {items : List (String × Item T)} (w : TreeWF keyOf t items) {it : Item T}
    (h : it ∈ treeItems t) : mapGet items it.key = some it := by
  obtain ⟨p, hp, hit⟩ := mem_treeItems.mp h
  exact w.member_mapGet p hp it hit

theorem TreeWF.key_inj {T : Type} {keyOf : Item T → Int} {t : GroupTree T}
    {items : List (String × Item T)} (w : TreeWF keyOf t items) {x y : Item T}
    (hx : x ∈ treeItems t) (hy : y ∈ treeItems t) (hk : x.key = y.key) : x = y :=
  List.inj_on_of_nodup_map w.keys_nodup hx hy hk

theorem mapGet_append_left_of_some {T : Type} {l l₂ : List (String × Item T)} {k : String}
    {it : Item T} (h : mapGet l k = some it) : mapGet (l ++ l₂) k = some it := by
  rw [mapGet_append, h]; rfl

/-- Adding an item whose `keyOf` value is new to the tree and whose string
key is new to the table preserves tree well-formedness
(`updateExpTreeAndLinkedListForExpTime` / `...ForPriority`, fresh-key branch). -/
theorem TreeWF.insert_new {T : Type} {keyOf : Item T → Int} {t : GroupTree T}
    {items : List (String × Item T)} {item : Item T}
    (w : TreeWF keyOf t items)
    (hfind : treeFindKey t (keyOf item) = none)
    (hfresh : mapGet items item.key = none) :
    TreeWF keyOf (treeInsert t (keyOf item) [item]) (items ++ [(item.key, item)]) := by
  have hfreshkeys : ∀ x ∈ treeItems t, x.key ≠ item.key := by
    intro x hx hc
    have hx2 := w.mem_treeItems_mapGet hx
    rw [hc, hfresh] at hx2
    exact Option.noConfusion hx2
  have hperm := treeItems_treeInsert t (keyOf item) [item]
  constructor
  · exact treeInsert_sorted w.sorted (treeFindKey_none.mp hfind)
  · intro p hp
    rcases mem_treeInsert.mp hp with rfl | hp'
    · simp
    · exact w.groups_ne p hp'
  · intro p hp it hit
    rcases mem_treeInsert.mp hp with rfl | hp'
    · simp at hit; simp [hit]
    · exact w.member_key p hp' it hit
  · intro p hp it hit
    rcases mem_treeInsert.mp hp with rfl | hp'
    · simp at hit
      rw [hit]
      exact mapGet_append_single_self hfresh
    · exact mapGet_append_left_of_some (w.member_mapGet p hp' it hit)
  · intro q hq
    rcases List.mem_append.mp hq with hq' | hq'
    · obtain ⟨p, hp, hmem⟩ := w.items_mem q hq'
      exact ⟨p, mem_treeInsert.mpr (Or.inr hp), hmem⟩
    · simp at hq'
      refine ⟨(keyOf item, [item]), mem_treeInsert.mpr (Or.inl rfl), ?_⟩
      rw [hq']
      simp
  · rw [hperm.length_eq]
    simp [w.count]
  · refine (hperm.map (fun x => x.key)).symm.nodup ?_
    rw [List.map_append]
    simp only [List.map_cons, List.map_nil, List.singleton_append]
    rw [List.nodup_cons]
    constructor
    · intro hcontra
      obtain ⟨x, hx, hxk⟩ := List.mem_map.mp hcontra
      exact hfreshkeys x hx hxk
    · exact w.keys_nodup

/-- Adding an item into an existing group of the tree (the item's string key
being new to the table) preserves tree well-formedness.  `g'` is the grown
group: `item :: g` for the expiration tree, `g ++ [item]` for the priority
tree; only its multiset of members matters here. -/
theorem TreeWF.replace_grow {T : Type} {keyOf : Item T → Int} {t : GroupTree T}
    {items : List (String × Item T)} {item : Item T} {g g' : List (Item T)}
    (w : TreeWF keyOf t items)
    (hfind : treeFindKey t (keyOf item) = some g)
    (hfresh : mapGet items item.key = none)
    (hperm : g'.Perm (item :: g)) :
    TreeWF keyOf (treeReplace t (keyOf item) g') (items ++ [(item.key, item)]) := by
  obtain ⟨t₁, t₂, heq, hne1, hrep⟩ := treeReplace_decomp g' hfind
  have hfreshkeys : ∀ x ∈ treeItems t, x.key ≠ item.key := by
    intro x hx hc
    have hx2 := w.mem_treeItems_mapGet hx
    rw [hc, hfresh] at hx2
    exact Option.noConfusion hx2
  have hmemg' : ∀ x, x ∈ g' ↔ x = item ∨ x ∈ g := fun x => by
    rw [hperm.mem_iff, List.mem_cons]
  have hgmem : (keyOf item, g) ∈ t := by
    rw [heq]; exact List.mem_append_right _ (List.mem_cons_self _ _)
  have hsub : ∀ p : Int × List (Item T), p ∈ t₁ ∨ p ∈ t₂ → p ∈ t := by
    intro p hp
    rw [heq]
    rcases hp with hp | hp
    · exact List.mem_append_left _ hp
    · exact List.mem_append_right _ (List.mem_cons_of_mem _ hp)
  have hmemrep : ∀ p : Int × List (Item T),
      p ∈ treeReplace t (keyOf item) g' ↔ p ∈ t₁ ∨ p = (keyOf item, g') ∨ p ∈ t₂ := by
    intro p
    rw [hrep]
    simp [List.mem_append, List.mem_cons]
  have hitemsPerm : (treeItems (treeReplace t (keyOf item) g')).Perm (item :: treeItems t) := by
    rw [hrep, heq, treeItems_append, treeItems_cons, treeItems_append, treeItems_cons]
    simp only
    refine ((hperm.append_right (treeItems t₂)).append_left (treeItems t₁)).trans ?_
    rw [List.cons_append]
    exact List.perm_middle
  constructor
  · have hfst : (treeReplace t (keyOf item) g').map Prod.fst = t.map Prod.fst := by
      rw [hrep, heq]
      simp
    rw [hfst]; exact w.sorted
  · intro p hp
    rcases (hmemrep p).mp hp with hp' | hp' | hp'
    · exact w.groups_ne p (hsub p (Or.inl hp'))
    · rw [hp']
      exact List.ne_nil_of_mem ((hmemg' item).mpr (Or.inl rfl))
    · exact w.groups_ne p (hsub p (Or.inr hp'))
  · intro p hp x hx
    rcases (hmemrep p).mp hp with hp' | hp' | hp'
    · exact w.member_key p (hsub p (Or.inl hp')) x hx
    · rw [hp'] at hx ⊢
      rcases (hmemg' x).mp hx with rfl | hx'
      · rfl
      · exact w.member_key (keyOf item, g) hgmem x hx'
    · exact w.member_key p (hsub p (Or.inr hp')) x hx
  · intro p hp x hx
    rcases (hmemrep p).mp hp with hp' | hp' | hp'
    · exact mapGet_append_left_of_some (w.member_mapGet p (hsub p (Or.inl hp')) x hx)
    · rw [hp'] at hx
      rcases (hmemg' x).mp hx with rfl | hx'
      · exact mapGet_append_single_self hfresh
      · exact mapGet_append_left_of_some (w.member_mapGet (keyOf item, g) hgmem x hx')
    · exact mapGet_append_left_of_some (w.member_mapGet p (hsub p (Or.inr hp')) x hx)
  · intro q hq
    rcases List.mem_append.mp hq with hq' | hq'
    · obtain ⟨p₀, hp₀, hmem₀⟩ := w.items_mem q hq'
      rw [heq] at hp₀
      rcases List.mem_append.mp hp₀ with h1 | h1
      · exact ⟨p₀, (hmemrep p₀).mpr (Or.inl h1), hmem₀⟩
      · rcases List.mem_cons.mp h1 with rfl | h2
        · refine ⟨(keyOf item, g'), (hmemrep _).mpr (Or.inr (Or.inl rfl)), ?_⟩
          exact (hmemg' q.2).mpr (Or.inr hmem₀)
        · exact ⟨p₀, (hmemrep p₀).mpr (Or.inr (Or.inr h2)), hmem₀⟩
    · simp at hq'
      refine ⟨(keyOf item, g'), (hmemrep _).mpr (Or.inr (Or.inl rfl)), ?_⟩
      rw [hq']
      exact (hmemg' item).mpr (Or.inl rfl)
  · rw [hitemsPerm.length_eq]
    simp [w.count]
  · refine (hitemsPerm.map (fun x => x.key)).symm.nodup ?_
    simp only [List.map_cons]
    rw [List.nodup_cons]
    constructor
    · intro hcontra
      obtain ⟨x, hx, hxk⟩ := List.mem_map.mp hcontra
      exact hfreshkeys x hx hxk
    · exact w.keys_nodup

/-- Removing an item that the Entry Table holds preserves tree
well-formedness (`deleteItem`'s effect on one tree together with its effect
on the table). -/
theorem TreeWF.remove {T : Type} {keyOf : Item T → Int} {t : GroupTree T}
    {items : List (String × Item T)} {item : Item T}
    (w : TreeWF keyOf t items)
    (hnd : (items.map Prod.fst).Nodup)
    (hqk : ∀ q ∈ items, q.2.key = q.1)
    (hmem : mapGet items item.key = some item) :
    TreeWF keyOf (treeRemoveItem t (keyOf item) item.key)
      (items.filter (fun q => !(q.1 == item.key))) := by
  have hpair : (item.key, item) ∈ items := mapGet_some_mem hmem
  obtain ⟨p₀, hp₀, hin₀⟩ := w.items_mem (item.key, item) hpair
  have hkey₀ : keyOf item = p₀.1 := w.member_key p₀ hp₀ item hin₀
  have hp₀' : (keyOf item, p₀.2) ∈ t := by rw [hkey₀, Prod.mk.eta]; exact hp₀
  have hfind : treeFindKey t (keyOf item) = some p₀.2 := by
    rw [hkey₀]
    rw [hkey₀] at hp₀'
    exact treeFindKey_of_mem_sorted w.sorted hp₀'
  obtain ⟨t₁, t₂, heq, hne1, hrem⟩ := treeRemoveItem_decomp item.key hfind
  have htI : treeItems t = treeItems t₁ ++ (p₀.2 ++ treeItems t₂) := by
    rw [heq, treeItems_append, treeItems_cons]
  have hglobal := w.keys_nodup
  rw [htI, List.map_append, List.map_append] at hglobal
  have h1 := List.nodup_append.mp hglobal
  have h2 := List.nodup_append.mp h1.2.1
  have hging : ∀ x ∈ p₀.2, x ∈ treeItems t := fun x hx => mem_treeItems.mpr ⟨p₀, hp₀, hx⟩
  have huniq : ∀ x ∈ p₀.2, x.key = item.key → x = item := by
    intro x hx hk
    exact w.key_inj (hging x hx) (hging item hin₀) hk
  have hperm_g := eraseP_key_perm hin₀ huniq
  have her_sub : (p₀.2.eraseP (fun x => x.key == item.key)).Sublist p₀.2 :=
    List.eraseP_sublist _
  have her_len : (p₀.2.eraseP (fun x => x.key == item.key)).length + 1 = p₀.2.length :=
    List.length_eraseP_add_one hin₀ (by simp)
  have her_keys : ∀ x ∈ p₀.2.eraseP (fun x => x.key == item.key), x.key ≠ item.key :=
    eraseP_key_not_mem h2.1
  have hABkeys : ∀ x : Item T, (x ∈ treeItems t₁ ∨ x ∈ treeItems t₂) → x.key ≠ item.key := by
    intro x hx hk
    have hxt : x ∈ treeItems t := by
      rw [htI]
      rcases hx with hx | hx
      · exact List.mem_append_left _ hx
      · exact List.mem_append_right _ (List.mem_append_right _ hx)
    have hxitem : x = item := w.key_inj hxt (hging item hin₀) hk
    subst hxitem
    rcases hx with hx | hx
    · exact h1.2.2 (List.mem_map.mpr ⟨x, hx, rfl⟩)
        (List.mem_append_left _ (List.mem_map.mpr ⟨x, hin₀, hk⟩))
    · exact h2.2.2 (List.mem_map.mpr ⟨x, hin₀, hk⟩) (List.mem_map.mpr ⟨x, hx, rfl⟩)
  have htI' : treeItems (treeRemoveItem t (keyOf item) item.key) =
      treeItems t₁ ++ ((p₀.2.eraseP (fun x => x.key == item.key)) ++ treeItems t₂) := by
    rw [hrem]
    by_cases hemp : (p₀.2.eraseP (fun x => x.key == item.key)).isEmpty
    · rw [if_pos hemp, treeItems_append, List.isEmpty_iff.mp hemp]
      simp
    · rw [if_neg hemp, treeItems_append, treeItems_cons]
  have hmemres : ∀ p : Int × List (Item T), p ∈ treeRemoveItem t (keyOf item) item.key →
      p ∈ t₁ ∨ (p = (keyOf item, p₀.2.eraseP (fun x => x.key == item.key)) ∧
        p₀.2.eraseP (fun x => x.key == item.key) ≠ []) ∨ p ∈ t₂ := by
    intro p hp
    rw [hrem] at hp
    by_cases hemp : (p₀.2.eraseP (fun x => x.key == item.key)).isEmpty
    · rw [if_pos hemp] at hp
      rcases List.mem_append.mp hp with h | h
      · exact Or.inl h
      · exact Or.inr (Or.inr h)
    · rw [if_neg hemp] at hp
      rcases List.mem_append.mp hp with h | h
      · exact Or.inl h
      · rcases List.mem_cons.mp h with h | h
        · exact Or.inr (Or.inl ⟨h, fun hc => hemp (by simp [hc])⟩)
        · exact Or.inr (Or.inr h)
  have hmemres₁ : ∀ p : Int × List (Item T), p ∈ t₁ ∨ p ∈ t₂ →
      p ∈ treeRemoveItem t (keyOf item) item.key := by
    intro p hp
    rw [hrem]
    rcases hp with hp | hp
    · exact List.mem_append_left _ hp
    · refine List.mem_append_right _ ?_
      by_cases hemp : (p₀.2.eraseP (fun x => x.key == item.key)).isEmpty
      · rw [if_pos hemp]; exact hp
      · rw [if_neg hemp]; exact List.mem_cons_of_mem _ hp
  have hmemres₂ : p₀.2.eraseP (fun x => x.key == item.key) ≠ [] →
      (keyOf item, p₀.2.eraseP (fun x => x.key == item.key)) ∈
        treeRemoveItem t (keyOf item) item.key := by
    intro hne
    rw [hrem]
    have hemp : ¬(p₀.2.eraseP (fun x => x.key == item.key)).isEmpty := by
      intro hc
      exact hne (List.isEmpty_iff.mp hc)
    rw [if_neg hemp]
    exact List.mem_append_right _ (List.mem_cons_self _ _)
  have hsub : ∀ p : Int × List (Item T), p ∈ t₁ ∨ p ∈ t₂ → p ∈ t := by
    intro p hp
    rw [heq]
    rcases hp with hp | hp
    · exact List.mem_append_left _ hp
    · exact List.mem_append_right _ (List.mem_cons_of_mem _ hp)
  constructor
  · have hfstsub : ((treeRemoveItem t (keyOf item) item.key).map Prod.fst).Sublist
        (t.map Prod.fst) := by
      rw [hrem, heq]
      by_cases hemp : (p₀.2.eraseP (fun x => x.key == item.key)).isEmpty
      · rw [if_pos hemp]
        rw [List.map_append, List.map_append, List.map_cons]
        exact List.Sublist.append_left ((List.Sublist.refl _).cons _) _
      · rw [if_neg hemp]
        rw [List.map_append, List.map_append, List.map_cons, List.map_cons]
    exact List.Pairwise.sublist hfstsub w.sorted
  · intro p hp
    rcases hmemres p hp with h | ⟨rfl, hne⟩ | h
    · exact w.groups_ne p (hsub p (Or.inl h))
    · exact hne
    · exact w.groups_ne p (hsub p (Or.inr h))
  · intro p hp x hx
    rcases hmemres p hp with h | ⟨rfl, hne⟩ | h
    · exact w.member_key p (hsub p (Or.inl h)) x hx
    · have hxg : x ∈ p₀.2 := her_sub.subset hx
      exact w.member_key _ hp₀' x hxg
    · exact w.member_key p (hsub p (Or.inr h)) x hx
  · intro p hp x hx
    have hxkey : x.key ≠ item.key ∧ mapGet items x.key = some x := by
      rcases hmemres p hp with h | ⟨rfl, hne⟩ | h
      · refine ⟨hABkeys x (Or.inl (mem_treeItems.mpr ⟨p, h, hx⟩)), ?_⟩
        exact w.member_mapGet p (hsub p (Or.inl h)) x hx
      · have hxg : x ∈ p₀.2 := her_sub.subset hx
        exact ⟨her_keys x hx, w.member_mapGet p₀ hp₀ x hxg⟩
      · refine ⟨hABkeys x (Or.inr (mem_treeItems.mpr ⟨p, h, hx⟩)), ?_⟩
        exact w.member_mapGet p (hsub p (Or.inr h)) x hx
    rw [mapGet_filter_ne _ hxkey.1]
    exact hxkey.2
  · intro q hq
    have hq' := List.mem_filter.mp hq
    have hqne : q.1 ≠ item.key := by
      have := hq'.2
      simpa using this
    obtain ⟨p', hp', hmem'⟩ := w.items_mem q hq'.1
    rw [heq] at hp'
    rcases List.mem_append.mp hp' with h | h
    · exact ⟨p', hmemres₁ p' (Or.inl h), hmem'⟩
    · rcases List.mem_cons.mp h with h | h
      · have hqkey : q.2.key ≠ item.key := by
          rw [hqk q hq'.1]
          exact hqne
        have hq2 : q.2 ∈ p₀.2.eraseP (fun x => x.key == item.key) := by
          rw [List.mem_eraseP_of_neg (by simpa using hqkey)]
          rw [h] at hmem'
          exact hmem'
        refine ⟨(keyOf item, p₀.2.eraseP (fun x => x.key == item.key)),
          hmemres₂ (List.ne_nil_of_mem hq2), hq2⟩
      · exact ⟨p', hmemres₁ p' (Or.inr h), hmem'⟩
  · have hlen := w.count
    rw [htI] at hlen
    rw [htI']
    have hfl := mapGet_filter_length hnd hmem
    simp only [List.length_append] at hlen ⊢
    omega
  · have hsubitems : (treeItems (treeRemoveItem t (keyOf item) item.key)).Sublist
        (treeItems t) := by
      rw [htI', htI]
      exact List.Sublist.append_left (her_sub.append (List.Sublist.refl _)) _
    exact List.Nodup.sublist (hsubitems.map _) w.keys_nodup

/-- Replacing a group of the tree by a permutation of itself preserves tree
well-formedness (this is `get`'s move-to-MRU step seen from the index). -/
theorem TreeWF.replace_perm {T : Type} {keyOf : Item T → Int} {t : GroupTree T}
    {items : List (String × Item T)} {k : Int} {g g' : List (Item T)}
    (w : TreeWF keyOf t items)
    (hfind : treeFindKey t k = some g)
    (hperm : g'.Perm g) :
    TreeWF keyOf (treeReplace t k g') items := by
  obtain ⟨t₁, t₂, heq, hne1, hrep⟩ := treeReplace_decomp g' hfind
  have hgmem : (k, g) ∈ t := by
    rw [heq]; exact List.mem_append_right _ (List.mem_cons_self _ _)
  have hsub : ∀ p : Int × List (Item T), p ∈ t₁ ∨ p ∈ t₂ → p ∈ t := by
    intro p hp
    rw [heq]
    rcases hp with hp | hp
    · exact List.mem_append_left _ hp
    · exact List.mem_append_right _ (List.mem_cons_of_mem _ hp)
  have hmemrep : ∀ p : Int × List (Item T),
      p ∈ treeReplace t k g' ↔ p ∈ t₁ ∨ p = (k, g') ∨ p ∈ t₂ := by
    intro p
    rw [hrep]
    simp [List.mem_append, List.mem_cons]
  have hitemsPerm : (treeItems (treeReplace t k g')).Perm (treeItems t) := by
    rw [hrep, heq, treeItems_append, treeItems_cons, treeItems_append, treeItems_cons]
    simp only
    exact (hperm.append_right (treeItems t₂)).append_left (treeItems t₁)
  constructor
  · have hfst : (treeReplace t k g').map Prod.fst = t.map Prod.fst := by
      rw [hrep, heq]
      simp
    rw [hfst]; exact w.sorted
  · intro p hp
    rcases (hmemrep p).mp hp with hp' | hp' | hp'
    · exact w.groups_ne p (hsub p (Or.inl hp'))
    · rw [hp']
      intro hc
      simp only at hc
      rw [hc] at hperm
      exact w.groups_ne (k, g) hgmem (List.Perm.eq_nil hperm.symm)
    · exact w.groups_ne p (hsub p (Or.inr hp'))
  · intro p hp x hx
    rcases (hmemrep p).mp hp with hp' | hp' | hp'
    · exact w.member_key p (hsub p (Or.inl hp')) x hx
    · rw [hp'] at hx ⊢
      exact w.member_key (k, g) hgmem x (hperm.mem_iff.mp hx)
    · exact w.member_key p (hsub p (Or.inr hp')) x hx
  · intro p hp x hx
    rcases (hmemrep p).mp hp with hp' | hp' | hp'
    · exact w.member_mapGet p (hsub p (Or.inl hp')) x hx
    · rw [hp'] at hx
      exact w.member_mapGet (k, g) hgmem x (hperm.mem_iff.mp hx)
    · exact w.member_mapGet p (hsub p (Or.inr hp')) x hx
  · intro q hq
    obtain ⟨p₀, hp₀, hmem₀⟩ := w.items_mem q hq
    rw [heq] at hp₀
    rcases List.mem_append.mp hp₀ with h1 | h1
    · exact ⟨p₀, (hmemrep p₀).mpr (Or.inl h1), hmem₀⟩
    · rcases List.mem_cons.mp h1 with rfl | h2
      · exact ⟨(k, g'), (hmemrep _).mpr (Or.inr (Or.inl rfl)), hperm.mem_iff.mpr hmem₀⟩
      · exact ⟨p₀, (hmemrep p₀).mpr (Or.inr (Or.inr h2)), hmem₀⟩
  · rw [hitemsPerm.length_eq]
    exact w.count
  · exact (hitemsPerm.map (fun x => x.key)).symm.nodup w.keys_nodup

/-- The move-to-MRU step of `get` preserves priority-tree well-formedness. -/
theorem TreeWF.markMRU {T : Type} {t : GroupTree T} {items : List (String × Item T)}
    {item : Item T}
    (w : TreeWF (fun x : Item T => x.priority) t items)
    (hmem : mapGet items item.key = some item) :
    TreeWF (fun x : Item T => x.priority)
      (PriorityExpiryCache.markMostRecentlyUsed t item) items := by
  cases hfind : treeFindKey t item.priority with
  | none =>
    have hstep : PriorityExpiryCache.markMostRecentlyUsed t item = t := by
      unfold PriorityExpiryCache.markMostRecentlyUsed
      rw [hfind]
    rw [hstep]; exact w
  | some g =>
    have hstep : PriorityExpiryCache.markMostRecentlyUsed t item =
        treeReplace t item.priority ((g.eraseP (fun x => x.key == item.key)) ++ [item]) := by
      unfold PriorityExpiryCache.markMostRecentlyUsed
      rw [hfind]
    rw [hstep]
    have hpair := mapGet_some_mem hmem
    obtain ⟨p₀, hp₀, hin₀⟩ := w.items_mem _ hpair
    have hkey₀ : item.priority = p₀.1 := w.member_key p₀ hp₀ item hin₀
    have hfind₀ : treeFindKey t item.priority = some p₀.2 := by
      rw [hkey₀]
      exact treeFindKey_of_mem_sorted w.sorted (by rw [Prod.mk.eta]; exact hp₀)
    have hgp : g = p₀.2 := by
      rw [hfind] at hfind₀
      injection hfind₀
    subst hgp
    have hing : item ∈ p₀.2 := hin₀
    have hging : ∀ x ∈ p₀.2, x ∈ treeItems t := fun x hx => mem_treeItems.mpr ⟨p₀, hp₀, hx⟩
    have huniq : ∀ x ∈ p₀.2, x.key = item.key → x = item := by
      intro x hx hk
      exact w.key_inj (hging x hx) (hging item hing) hk
    have h1 := eraseP_key_perm hing huniq
    refine TreeWF.replace_perm w hfind ?_
    refine List.Perm.trans ?_ h1.symm
    exact List.perm_append_comm

theorem mapGet_none_filter {T : Type} {l : List (String × Item T)} {k : String}
    (pred : String × Item T → Bool) (h : mapGet l k = none) :
    mapGet (l.filter pred) k = none := by
  rw [mapGet_none] at h ⊢
  intro p hp
  exact h p (List.mem_filter.mp hp).1

/-- Full well-formedness of a cache state: unique Entry-Table keys, each
entry stored under its own key, an accurate `numItems`, and both index
trees consistent with the table. -/
structure CacheWF {T : Type} (c : PriorityExpiryCache T) : Prop where
  keys_nodup : (c.items.map Prod.fst).Nodup
  item_key : ∀ q ∈ c.items, q.2.key = q.1
  count : c.numItems = (c.items.length : Int)
  expWF : TreeWF (fun x => x.expTime) c.expTree c.items
  prioWF : TreeWF (fun x => x.priority) c.priorityTree c.items

theorem CacheWF.create (T : Type) (maxItems : Int) :
    CacheWF (PriorityExpiryCache.create T maxItems) := by
  constructor
  · exact List.nodup_nil
  · intro q hq
    simp [PriorityExpiryCache.create] at hq
  · rfl
  · constructor <;> simp [PriorityExpiryCache.create, treeItems]
  · constructor <;> simp [PriorityExpiryCache.create, treeItems]

theorem CacheWF.addItem {T : Type} {c : PriorityExpiryCache T} {key : String} {value : T}
    {priority expireTime : Int} (w : CacheWF c)
    (hfresh : mapGet c.items key = none) :
    CacheWF (c.addItem key value priority expireTime) := by
  have hknot : ∀ p ∈ c.items, p.1 ≠ key := mapGet_none.mp hfresh
  constructor
  · rw [PriorityExpiryCache.addItem]
    simp only [List.map_append, List.map_cons, List.map_nil]
    refine List.Nodup.append w.keys_nodup (by simp) ?_
    intro a ha hb
    simp at hb
    obtain ⟨p, hp, hpa⟩ := List.mem_map.mp ha
    exact hknot p hp (by rw [hpa, hb])
  · intro q hq
    rw [PriorityExpiryCache.addItem] at hq
    simp only at hq
    rcases List.mem_append.mp hq with h | h
    · exact w.item_key q h
    · simp at h
      rw [h]
  · rw [PriorityExpiryCache.addItem]
    simp [w.count]
  · rw [PriorityExpiryCache.addItem]
    simp only
    rw [PriorityExpiryCache.updateExpTreeAndLinkedListForExpTime]
    cases hfind : treeFindKey c.expTree
        ({ key := key, value := value, expTime := expireTime, priority := priority } : Item T).expTime with
    | none => exact TreeWF.insert_new w.expWF hfind hfresh
    | some g => exact TreeWF.replace_grow w.expWF hfind hfresh (List.Perm.refl _)
  · rw [PriorityExpiryCache.addItem]
    simp only
    rw [PriorityExpiryCache.updatePriorityTreeAndLinkedListForPriority]
    cases hfind : treeFindKey c.priorityTree
        ({ key := key, value := value, expTime := expireTime, priority := priority } : Item T).priority with
    | none => exact TreeWF.insert_new w.prioWF hfind hfresh
    | some g =>
      refine TreeWF.replace_grow w.prioWF hfind hfresh ?_
      exact List.perm_append_comm

theorem CacheWF.deleteItem {T : Type} {c : PriorityExpiryCache T} {item : Item T}
    (w : CacheWF c) (hmem : mapGet c.items item.key = some item) :
    CacheWF (c.deleteItem item) := by
  constructor
  · rw [PriorityExpiryCache.deleteItem]
    simp only
    exact List.Nodup.sublist ((List.filter_sublist _).map _) w.keys_nodup
  · intro q hq
    rw [PriorityExpiryCache.deleteItem] at hq
    simp only at hq
    exact w.item_key q (List.mem_filter.mp hq).1
  · rw [PriorityExpiryCache.deleteItem]
    simp only
    have hfl := mapGet_filter_length w.keys_nodup hmem
    have hc := w.count
    omega
  · exact TreeWF.remove w.expWF w.keys_nodup w.item_key hmem
  · exact TreeWF.remove w.prioWF w.keys_nodup w.item_key hmem

theorem CacheWF.getOp {T : Type} {c : PriorityExpiryCache T} (key : String)
    (w : CacheWF c) : CacheWF (PriorityExpiryCache.get c key).2 := by
  cases hmg : mapGet c.items key with
  | none =>
    simp only [PriorityExpiryCache.get, hmg]
    exact w
  | some item =>
    simp only [PriorityExpiryCache.get, hmg]
    by_cases htime : c.mockTime < item.expTime
    · rw [if_pos htime]
      have hik : item.key = key := w.item_key (key, item) (mapGet_some_mem hmg)
      have hmem : mapGet c.items item.key = some item := by rw [hik]; exact hmg
      exact ⟨w.keys_nodup, w.item_key, w.count, w.expWF, TreeWF.markMRU w.prioWF hmem⟩
    · rw [if_neg htime]
      exact w

/-- The eviction victim selected by `set` is an entry the table holds. -/
theorem evictSelect_mapGet {T : Type} {c : PriorityExpiryCache T} {victim : Item T}
    (w : CacheWF c) (hev : PriorityExpiryCache.evictSelect c = some victim) :
    mapGet c.items victim.key = some victim := by
  cases hhead : c.expTree.head? with
  | none =>
    simp only [PriorityExpiryCache.evictSelect, hhead] at hev
    exact Option.noConfusion hev
  | some p =>
    have hpmem : p ∈ c.expTree := List.mem_of_mem_head? (by rw [hhead]; simp)
    cases p with
    | mk e g =>
      simp only [PriorityExpiryCache.evictSelect, hhead] at hev
      by_cases htime : e ≤ c.mockTime
      · rw [if_pos htime] at hev
        have hg : victim ∈ g := List.mem_of_mem_head? (by rw [hev]; simp)
        exact w.expWF.member_mapGet (e, g) hpmem victim hg
      · rw [if_neg htime] at hev
        cases hphead : c.priorityTree.head? with
        | none =>
          simp only [hphead] at hev
          exact Option.noConfusion hev
        | some pq =>
          simp only [hphead] at hev
          have hqmem : pq ∈ c.priorityTree := List.mem_of_mem_head? (by rw [hphead]; simp)
          have hgq : victim ∈ pq.2 := List.mem_of_mem_head? (by rw [hev]; simp)
          exact w.prioWF.member_mapGet pq hqmem victim hgq

theorem CacheWF.setOp {T : Type} {c : PriorityExpiryCache T} (key : String) (value : T)
    (priority expireTime : Int) (w : CacheWF c) :
    CacheWF (c.set key value priority expireTime) := by
  cases hmg : mapGet c.items key with
  | some item =>
    simp only [PriorityExpiryCache.set, hmg]
    have hik : item.key = key := w.item_key (key, item) (mapGet_some_mem hmg)
    have hmem : mapGet c.items item.key = some item := by rw [hik]; exact hmg
    refine CacheWF.addItem (w.deleteItem hmem) ?_
    rw [PriorityExpiryCache.deleteItem]
    simp only
    rw [← hik]
    exact mapGet_filter_self _ _
  | none =>
    simp only [PriorityExpiryCache.set, hmg]
    by_cases hcap : c.maxItems ≤ c.numItems
    · rw [if_pos hcap]
      cases hev : PriorityExpiryCache.evictSelect c with
      | none => exact CacheWF.addItem w hmg
      | some victim =>
        have hvic := evictSelect_mapGet w hev
        have hfresh' : mapGet (c.deleteItem victim).items key = none := by
          rw [PriorityExpiryCache.deleteItem]
          simp only
          exact mapGet_none_filter _ hmg
        exact CacheWF.addItem (w.deleteItem hvic) hfresh'
    · rw [if_neg hcap]
      exact CacheWF.addItem w hmg

theorem CacheWF.setMockTimeOp {T : Type} {c : PriorityExpiryCache T} (t : Int)
    (w : CacheWF c) : CacheWF (c.setMockTime t) :=
  ⟨w.keys_nodup, w.item_key, w.count, w.expWF, w.prioWF⟩

theorem CacheWF.applyOpWF {T : Type} {c : PriorityExpiryCache T} (op : Op T)
    (w : CacheWF c) : CacheWF (applyOp c op) := by
  cases op with
  | get k => exact w.getOp k
  | set k v p e => exact w.setOp k v p e
  | setMockTime t => exact w.setMockTimeOp t

theorem CacheWF.runOps {T : Type} {c : PriorityExpiryCache T} (ops : List (Op T))
    (w : CacheWF c) : CacheWF (runOps c ops) := by
  induction ops generalizing c with
  | nil => exact w
  | cons op rest ih => exact ih (w.applyOpWF op)

/-- Every reachable cache state is well-formed. -/
theorem Reachable.cacheWF {T : Type} {c : PriorityExpiryCache T} (h : Reachable c) :
    CacheWF c := by
  obtain ⟨maxItems, ops, rfl⟩ := h
  exact CacheWF.runOps ops (CacheWF.create T maxItems)

/-! ### Auxiliary lemmas for the claim theorems -/

theorem head_key_min {T : Type} {t : GroupTree T} {p₀ p : Int × List (Item T)}
    (hs : (t.map Prod.fst).Pairwise (· < ·)) (hhead : t.head? = some p₀) (hp : p ∈ t) :
    p₀.1 ≤ p.1 := by
  cases t with
  | nil => simp at hhead
  | cons q rest =>
    simp at hhead
    subst hhead
    rcases List.mem_cons.mp hp with rfl | hp'
    · exact le_refl _
    · rw [List.map_cons, List.pairwise_cons] at hs
      exact le_of_lt (hs.1 p.1 (List.mem_map.mpr ⟨p, hp', rfl⟩))

theorem treeFindKey_append_cons {T : Type} {t₁ t₂ : GroupTree T} {k : Int}
    {g : List (Item T)} (h : ∀ p ∈ t₁, p.1 ≠ k) :
    treeFindKey (t₁ ++ (k, g) :: t₂) k = some g := by
  unfold treeFindKey
  rw [List.find?_append]
  have hnone : t₁.find? (fun p => p.1 == k) = none :=
    List.find?_eq_none.mpr (by intro p hp; simpa using h p hp)
  rw [hnone]
  simp [List.find?_cons]

theorem treeFindKey_treeInsert_self {T : Type} {t : GroupTree T} {k : Int}
    {g : List (Item T)} (h : treeFindKey t k = none) :
    treeFindKey (treeInsert t k g) k = some g := by
  induction t with
  | nil => simp [treeInsert, treeFindKey, List.find?_cons]
  | cons p rest ih =>
    rw [treeFindKey_cons] at h
    by_cases hp : p.1 = k
    · rw [if_pos hp] at h; exact Option.noConfusion h
    · rw [if_neg hp] at h
      rw [treeInsert]
      by_cases hk : k < p.1
      · rw [if_pos hk, treeFindKey_cons]
        simp
      · rw [if_neg hk, treeFindKey_cons, if_neg hp]
        exact ih h

theorem treeFindKey_treeReplace_self {T : Type} {t : GroupTree T} {k : Int}
    {g g' : List (Item T)} (h : treeFindKey t k = some g) :
    treeFindKey (treeReplace t k g') k = some g' := by
  obtain ⟨t₁, t₂, heq, hne1, hrep⟩ := treeReplace_decomp g' h
  rw [hrep]
  exact treeFindKey_append_cons hne1

theorem treeFindKey_treeReplace_ne {T : Type} {t : GroupTree T} {k k2 : Int}
    {g' : List (Item T)} (h : k2 ≠ k) :
    treeFindKey (treeReplace t k g') k2 = treeFindKey t k2 := by
  induction t with
  | nil => rfl
  | cons p rest ih =>
    rw [treeReplace]
    by_cases hp : p.1 = k
    · rw [if_pos (by simpa using hp), treeFindKey_cons, treeFindKey_cons]
      rw [if_neg (Ne.symm h), if_neg (by rw [hp]; exact Ne.symm h)]
    · rw [if_neg (by simpa using hp), treeFindKey_cons, treeFindKey_cons, ih]

theorem runOps_append {T : Type} (c : PriorityExpiryCache T) (ops₁ ops₂ : List (Op T)) :
    runOps c (ops₁ ++ ops₂) = runOps (runOps c ops₁) ops₂ := by
  induction ops₁ generalizing c with
  | nil => rfl
  | cons op rest ih => rw [List.cons_append, runOps, runOps, ih]

theorem Reachable.stepOp {T : Type} {c : PriorityExpiryCache T} (h : Reachable c)
    (op : Op T) : Reachable (applyOp c op) := by
  obtain ⟨m, ops, rfl⟩ := h
  exact ⟨m, ops ++ [op], by rw [runOps_append]; rfl⟩

/-- In a well-formed nonempty cache the eviction step always selects a
victim. -/
theorem evictSelect_isSome {T : Type} {c : PriorityExpiryCache T} (w : CacheWF c)
    (hne : c.items ≠ []) : ∃ victim : Item T, PriorityExpiryCache.evictSelect c = some victim := by
  obtain ⟨q, hq⟩ := List.exists_mem_of_ne_nil _ hne
  obtain ⟨pe, hpe, hqe⟩ := w.expWF.items_mem q hq
  obtain ⟨pp, hpp, hqp⟩ := w.prioWF.items_mem q hq
  cases hhead : c.expTree.head? with
  | none =>
    rw [List.head?_eq_none_iff] at hhead
    rw [hhead] at hpe
    exact absurd hpe (List.not_mem_nil _)
  | some p =>
    cases p with
    | mk e g =>
      have hpmem : (e, g) ∈ c.expTree := List.mem_of_mem_head? (by rw [hhead]; simp)
      have hgne : g ≠ [] := w.expWF.groups_ne (e, g) hpmem
      by_cases htime : e ≤ c.mockTime
      · obtain ⟨v, hv⟩ := List.exists_mem_of_ne_nil _ hgne
        cases hgv : g.head? with
        | none =>
          rw [List.head?_eq_none_iff] at hgv
          exact absurd hgv hgne
        | some v' =>
          refine ⟨v', ?_⟩
          simp only [PriorityExpiryCache.evictSelect, hhead, if_pos htime]
          exact hgv
      · cases hphead : c.priorityTree.head? with
        | none =>
          rw [List.head?_eq_none_iff] at hphead
          rw [hphead] at hpp
          exact absurd hpp (List.not_mem_nil _)
        | some pq =>
          have hqmem : pq ∈ c.priorityTree := List.mem_of_mem_head? (by rw [hphead]; simp)
          have hgqne : pq.2 ≠ [] := w.prioWF.groups_ne pq hqmem
          cases hgv : pq.2.head? with
          | none =>
            rw [List.head?_eq_none_iff] at hgv
            exact absurd hgv hgqne
          | some v' =>
            refine ⟨v', ?_⟩
            simp only [PriorityExpiryCache.evictSelect, hhead, if_neg htime, hphead]
            exact hgv

/-- The shape `set` takes on a missing key when the cache is at capacity and
a victim is selected. -/
theorem set_absent_full_eq {T : Type} {c : PriorityExpiryCache T} {key : String}
    {value : T} {priority expireTime : Int} {victim : Item T}
    (habsent : mapGet c.items key = none)
    (hfull : c.maxItems ≤ c.numItems)
    (hev : PriorityExpiryCache.evictSelect c = some victim) :
    c.set key value priority expireTime =
      (c.deleteItem victim).addItem key value priority expireTime := by
  simp only [PriorityExpiryCache.set, habsent, if_pos hfull, hev]

/-! ### Claim theorems -/

/-- C1: in every reachable state where `set` is called on a missing key with
the cache at capacity, if some present entry is expired
(`expireAt <= now`), then the entry the eviction step removes is itself an
expired present entry — its `expireAt <= now` — regardless of every other
entry's priority or recency, and `set` proceeds by deleting exactly that
victim and then adding the new item. -/
theorem set_evicts_expired_first {T : Type} {c : PriorityExpiryCache T} (key : String)
    (value : T) (priority expireTime : Int)
    (hreach : Reachable c)
    (habsent : mapGet c.items key = none)
    (hfull : c.maxItems ≤ c.numItems)
    (hexpired : ∃ q ∈ c.items, q.2.expTime ≤ c.mockTime) :
    ∃ victim : Item T,
      PriorityExpiryCache.evictSelect c = some victim ∧
      victim.expTime ≤ c.mockTime ∧
      mapGet c.items victim.key = some victim ∧
      c.set key value priority expireTime =
        (c.deleteItem victim).addItem key value priority expireTime := by
  have w := hreach.cacheWF
  obtain ⟨q, hq, hqexp⟩ := hexpired
  obtain ⟨pe, hpe, hqe⟩ := w.expWF.items_mem q hq
  have hpkey : q.2.expTime = pe.1 := w.expWF.member_key pe hpe q.2 hqe
  cases hhead : c.expTree.head? with
  | none =>
    rw [List.head?_eq_none_iff] at hhead
    rw [hhead] at hpe
    exact absurd hpe (List.not_mem_nil _)
  | some p =>
    cases p with
    | mk e g =>
      have hpmem : (e, g) ∈ c.expTree := List.mem_of_mem_head? (by rw [hhead]; simp)
      have hmin : e ≤ pe.1 := head_key_min w.expWF.sorted hhead hpe
      have hpmock : pe.1 ≤ c.mockTime := hpkey ▸ hqexp
      have htime : e ≤ c.mockTime := le_trans hmin hpmock
      have hgne : g ≠ [] := w.expWF.groups_ne (e, g) hpmem
      cases hgv : g.head? with
      | none =>
        rw [List.head?_eq_none_iff] at hgv
        exact absurd hgv hgne
      | some victim =>
        have hvmem : victim ∈ g := List.mem_of_mem_head? (by rw [hgv]; simp)
        have hvexp : victim.expTime = e := w.expWF.member_key (e, g) hpmem victim hvmem
        have hev : PriorityExpiryCache.evictSelect c = some victim := by
          simp only [PriorityExpiryCache.evictSelect, hhead, if_pos htime]
          exact hgv
        refine ⟨victim, hev, ?_, ?_, ?_⟩
        · rw [hvexp]; exact htime
        · exact w.expWF.member_mapGet (e, g) hpmem victim hvmem
        · exact set_absent_full_eq habsent hfull hev

/-- C2: in every reachable state where `set` must evict (missing key, at
capacity, at least one entry present) and no present entry is expired, the
evicted entry carries the minimum priority among all present entries, and
it is the head (least recently touched by `get` or (re)insertion) of that
minimum-priority group's list. -/
theorem set_evicts_min_priority_lru {T : Type} {c : PriorityExpiryCache T} (key : String)
    (value : T) (priority expireTime : Int)
    (hreach : Reachable c)
    (habsent : mapGet c.items key = none)
    (hfull : c.maxItems ≤ c.numItems)
    (hne : c.items ≠ [])
    (hnoexp : ∀ q ∈ c.items, c.mockTime < q.2.expTime) :
    ∃ (victim : Item T) (g : List (Item T)),
      PriorityExpiryCache.evictSelect c = some victim ∧
      mapGet c.items victim.key = some victim ∧
      (∀ q ∈ c.items, victim.priority ≤ q.2.priority) ∧
      treeFindKey c.priorityTree victim.priority = some g ∧
      g.head? = some victim ∧
      c.set key value priority expireTime =
        (c.deleteItem victim).addItem key value priority expireTime := by
  have w := hreach.cacheWF
  obtain ⟨q0, hq0⟩ := List.exists_mem_of_ne_nil _ hne
  obtain ⟨pe, hpe, hqe⟩ := w.expWF.items_mem q0 hq0
  cases hhead : c.expTree.head? with
  | none =>
    rw [List.head?_eq_none_iff] at hhead
    rw [hhead] at hpe
    exact absurd hpe (List.not_mem_nil _)
  | some p =>
    cases p with
    | mk e g0 =>
      have hpmem : (e, g0) ∈ c.expTree := List.mem_of_mem_head? (by rw [hhead]; simp)
      have hg0ne : g0 ≠ [] := w.expWF.groups_ne (e, g0) hpmem
      obtain ⟨x, hx⟩ := List.exists_mem_of_ne_nil _ hg0ne
      have hxexp : x.expTime = e := w.expWF.member_key (e, g0) hpmem x hx
      have hxmap := w.expWF.member_mapGet (e, g0) hpmem x hx
      have hxitems : (x.key, x) ∈ c.items := mapGet_some_mem hxmap
      have htime : ¬ e ≤ c.mockTime := by
        have hx2 := hnoexp (x.key, x) hxitems
        simp only at hx2
        rw [hxexp] at hx2
        omega
      obtain ⟨pp, hpp, hqp⟩ := w.prioWF.items_mem q0 hq0
      cases hphead : c.priorityTree.head? with
      | none =>
        rw [List.head?_eq_none_iff] at hphead
        rw [hphead] at hpp
        exact absurd hpp (List.not_mem_nil _)
      | some pq =>
        cases pq with
        | mk pmin gp =>
          have hqmem : (pmin, gp) ∈ c.priorityTree :=
            List.mem_of_mem_head? (by rw [hphead]; simp)
          have hgpne : gp ≠ [] := w.prioWF.groups_ne (pmin, gp) hqmem
          cases hgv : gp.head? with
          | none =>
            rw [List.head?_eq_none_iff] at hgv
            exact absurd hgv hgpne
          | some victim =>
            have hvmem : victim ∈ gp := List.mem_of_mem_head? (by rw [hgv]; simp)
            have hvprio : victim.priority = pmin :=
              w.prioWF.member_key (pmin, gp) hqmem victim hvmem
            have hev : PriorityExpiryCache.evictSelect c = some victim := by
              simp only [PriorityExpiryCache.evictSelect, hhead, if_neg htime, hphead]
              exact hgv
            refine ⟨victim, gp, hev,
              w.prioWF.member_mapGet (pmin, gp) hqmem victim hvmem, ?_, ?_, hgv,
              set_absent_full_eq habsent hfull hev⟩
            · intro q hq
              obtain ⟨pq', hpq', hqq'⟩ := w.prioWF.items_mem q hq
              have hminle : pmin ≤ pq'.1 := head_key_min w.prioWF.sorted hphead hpq'
              have hqk : q.2.priority = pq'.1 := w.prioWF.member_key pq' hpq' q.2 hqq'
              rw [hvprio, hqk]
              exact hminle
            · rw [hvprio]
              exact treeFindKey_of_mem_sorted w.prioWF.sorted hqmem

/-- `get` never changes the table, the count, the capacity, the clock or
the expiration tree. -/
theorem get_snd_fields {T : Type} (c : PriorityExpiryCache T) (k : String) :
    (PriorityExpiryCache.get c k).2.maxItems = c.maxItems ∧
    (PriorityExpiryCache.get c k).2.mockTime = c.mockTime ∧
    (PriorityExpiryCache.get c k).2.items = c.items ∧
    (PriorityExpiryCache.get c k).2.numItems = c.numItems ∧
    (PriorityExpiryCache.get c k).2.expTree = c.expTree := by
  cases hmg : mapGet c.items k with
  | none => simp [PriorityExpiryCache.get, hmg]
  | some item =>
    by_cases htime : c.mockTime < item.expTime
    · simp [PriorityExpiryCache.get, hmg, htime]
    · simp [PriorityExpiryCache.get, hmg, htime]

theorem applyOp_maxItems {T : Type} (c : PriorityExpiryCache T) (op : Op T) :
    (applyOp c op).maxItems = c.maxItems := by
  cases op with
  | get k => exact (get_snd_fields c k).1
  | set k v p e =>
    show (c.set k v p e).maxItems = c.maxItems
    cases hmg : mapGet c.items k with
    | some item =>
      simp [PriorityExpiryCache.set, hmg, PriorityExpiryCache.addItem,
        PriorityExpiryCache.deleteItem]
    | none =>
      simp only [PriorityExpiryCache.set, hmg]
      by_cases hcap : c.maxItems ≤ c.numItems
      · rw [if_pos hcap]
        cases hev : PriorityExpiryCache.evictSelect c with
        | none => simp [PriorityExpiryCache.addItem]
        | some victim =>
          simp [PriorityExpiryCache.addItem, PriorityExpiryCache.deleteItem]
      · rw [if_neg hcap]
        simp [PriorityExpiryCache.addItem]
  | setMockTime t => rfl

theorem set_numItems_le {T : Type} {c : PriorityExpiryCache T} (key : String) (value : T)
    (priority expireTime : Int) (w : CacheWF c) (hmax : 1 ≤ c.maxItems)
    (hb : c.numItems ≤ c.maxItems) :
    (c.set key value priority expireTime).numItems ≤ c.maxItems := by
  cases hmg : mapGet c.items key with
  | some item =>
    simp only [PriorityExpiryCache.set, hmg, PriorityExpiryCache.addItem,
      PriorityExpiryCache.deleteItem]
    omega
  | none =>
    simp only [PriorityExpiryCache.set, hmg]
    by_cases hcap : c.maxItems ≤ c.numItems
    · rw [if_pos hcap]
      have hlen : (1:Int) ≤ (c.items.length : Int) := by
        have hc := w.count
        omega
      have hne : c.items ≠ [] := by
        intro hcontra
        rw [hcontra] at hlen
        simp at hlen
      obtain ⟨victim, hev⟩ := evictSelect_isSome w hne
      rw [hev]
      simp only [PriorityExpiryCache.addItem, PriorityExpiryCache.deleteItem]
      omega
    · rw [if_neg hcap]
      simp only [PriorityExpiryCache.addItem]
      omega

theorem applyOp_numItems_le {T : Type} {c : PriorityExpiryCache T} (op : Op T)
    (w : CacheWF c) (hmax : 1 ≤ c.maxItems) (hb : c.numItems ≤ c.maxItems) :
    (applyOp c op).numItems ≤ (applyOp c op).maxItems := by
  rw [applyOp_maxItems]
  cases op with
  | get k =>
    have h := (get_snd_fields c k).2.2.2.1
    show (PriorityExpiryCache.get c k).2.numItems ≤ c.maxItems
    rw [h]
    exact hb
  | set k v p e => exact set_numItems_le k v p e w hmax hb
  | setMockTime t => exact hb

theorem runOps_maxItems {T : Type} (c : PriorityExpiryCache T) (ops : List (Op T)) :
    (runOps c ops).maxItems = c.maxItems := by
  induction ops generalizing c with
  | nil => rfl
  | cons op rest ih =>
    rw [runOps, ih, applyOp_maxItems]

theorem runOps_numItems_le {T : Type} {c : PriorityExpiryCache T} (ops : List (Op T))
    (w : CacheWF c) (hmax : 1 ≤ c.maxItems) (hb : c.numItems ≤ c.maxItems) :
    (runOps c ops).numItems ≤ (runOps c ops).maxItems := by
  induction ops generalizing c with
  | nil => exact hb
  | cons op rest ih =>
    rw [runOps]
    refine ih (w.applyOpWF op) ?_ ?_
    · rw [applyOp_maxItems]; exact hmax
    · have h1 := applyOp_numItems_le op w hmax hb
      rw [applyOp_maxItems] at h1
      rw [applyOp_maxItems]
      exact h1

/-- C3 (amended to positive capacity): for every cache constructed with
`maxCapacity >= 1`, after any sequence of operations — in particular any
sequence of `set` calls — the entry count satisfies
`entryCount <= maxCapacity`. -/
theorem capacity_invariant {T : Type} (maxCap : Int) (hmax : 1 ≤ maxCap)
    (ops : List (Op T)) :
    (runOps (PriorityExpiryCache.create T maxCap) ops).numItems ≤ maxCap := by
  have h := runOps_numItems_le ops (CacheWF.create T maxCap) hmax (by
    show (0:Int) ≤ maxCap
    omega)
  rw [runOps_maxItems] at h
  exact h

/-- C3 as stated is false at `maxCapacity = 0`: one `set` call on the
fresh zero-capacity cache finds nothing to evict, inserts anyway, and
leaves `entryCount = 1 > 0 = maxCapacity`. -/
theorem capacity_invariant_fails_at_zero :
    ¬ ((runOps (PriorityExpiryCache.create Int 0) [Op.set "A" 1 15 100]).numItems ≤
        (PriorityExpiryCache.create Int 0).maxItems) := by
  have h1 : (runOps (PriorityExpiryCache.create Int 0) [Op.set "A" 1 15 100]).numItems = 1 := by
    rfl
  rw [h1]
  decide

/-- C4: in every reachable state, `entryCount` equals the Entry-Table size,
the total membership of all Expiration Groups, and the total membership of
all Priority Groups. -/
theorem consistency_invariant {T : Type} {c : PriorityExpiryCache T}
    (hreach : Reachable c) :
    c.numItems = (c.items.length : Int) ∧
    c.numItems = (((c.expTree.map (fun p => p.2.length)).sum : Nat) : Int) ∧
    c.numItems = (((c.priorityTree.map (fun p => p.2.length)).sum : Nat) : Int) := by
  have w := hreach.cacheWF
  have hexp : (treeItems c.expTree).length = (c.expTree.map (fun p => p.2.length)).sum := by
    rw [treeItems, List.length_flatMap]
    rfl
  have hprio : (treeItems c.priorityTree).length =
      (c.priorityTree.map (fun p => p.2.length)).sum := by
    rw [treeItems, List.length_flatMap]
    rfl
  refine ⟨w.count, ?_, ?_⟩
  · have h2 : (c.expTree.map (fun p => p.2.length)).sum = c.items.length := by
      rw [← hexp]; exact w.expWF.count
    rw [w.count, h2]
  · have h2 : (c.priorityTree.map (fun p => p.2.length)).sum = c.items.length := by
      rw [← hprio]; exact w.prioWF.count
    rw [w.count, h2]

/-- C5: `get` on a present-but-expired key answers the absent marker
(`undefined`, here `none`), changes neither the entry count nor the Entry
Table nor either index, and is indistinguishable from `get` on a key that
was never inserted. -/
theorem get_expired_is_absent {T : Type} {c : PriorityExpiryCache T} {key : String}
    {item : Item T}
    (hmem : mapGet c.items key = some item)
    (hexp : item.expTime ≤ c.mockTime) :
    (PriorityExpiryCache.get c key).1 = none ∧
    (PriorityExpiryCache.get c key).2.numItems = c.numItems ∧
    (PriorityExpiryCache.get c key).2.items = c.items ∧
    (PriorityExpiryCache.get c key).2.expTree = c.expTree ∧
    (PriorityExpiryCache.get c key).2.priorityTree = c.priorityTree ∧
    (∀ key2 : String, mapGet c.items key2 = none →
      PriorityExpiryCache.get c key = PriorityExpiryCache.get c key2) := by
  have hstep : PriorityExpiryCache.get c key = (none, c) := by
    simp only [PriorityExpiryCache.get, hmem]
    rw [if_neg (by omega)]
  rw [hstep]
  refine ⟨rfl, rfl, rfl, rfl, rfl, ?_⟩
  intro key2 h2
  simp [PriorityExpiryCache.get, h2]

/-- C10: `get` on a present-but-expired key leaves the whole cache state
unchanged — in particular the entry's recency position inside its Priority
Group is frozen, because the move-to-MRU step runs only for unexpired
entries. -/
theorem get_expired_leaves_state {T : Type} {c : PriorityExpiryCache T} {key : String}
    {item : Item T}
    (hmem : mapGet c.items key = some item)
    (hexp : item.expTime ≤ c.mockTime) :
    (PriorityExpiryCache.get c key).2 = c ∧ (PriorityExpiryCache.get c key).1 = none := by
  have hstep : PriorityExpiryCache.get c key = (none, c) := by
    simp only [PriorityExpiryCache.get, hmem]
    rw [if_neg (by omega)]
  rw [hstep]
  exact ⟨rfl, rfl⟩

/-- C8: `get` on a present, unexpired key returns the value and moves that
entry to the tail (MRU end) of its Priority Group's list, changing nothing
else: table, count, expiration tree, clock, capacity and the set of
priority-group keys are untouched, and every other priority group is
unchanged. -/
theorem get_unexpired_touches {T : Type} {c : PriorityExpiryCache T} {key : String}
    {item : Item T} {g : List (Item T)}
    (hmem : mapGet c.items key = some item)
    (hunexp : c.mockTime < item.expTime)
    (hfind : treeFindKey c.priorityTree item.priority = some g) :
    (PriorityExpiryCache.get c key).1 = some item.value ∧
    (PriorityExpiryCache.get c key).2.items = c.items ∧
    (PriorityExpiryCache.get c key).2.numItems = c.numItems ∧
    (PriorityExpiryCache.get c key).2.expTree = c.expTree ∧
    (PriorityExpiryCache.get c key).2.mockTime = c.mockTime ∧
    (PriorityExpiryCache.get c key).2.maxItems = c.maxItems ∧
    (PriorityExpiryCache.get c key).2.priorityTree.map Prod.fst =
      c.priorityTree.map Prod.fst ∧
    treeFindKey (PriorityExpiryCache.get c key).2.priorityTree item.priority =
      some ((g.eraseP (fun x => x.key == item.key)) ++ [item]) ∧
    (∀ k2 : Int, k2 ≠ item.priority →
      treeFindKey (PriorityExpiryCache.get c key).2.priorityTree k2 =
        treeFindKey c.priorityTree k2) := by
  have hstep : PriorityExpiryCache.get c key =
      (some item.value,
        { c with priorityTree := PriorityExpiryCache.markMostRecentlyUsed c.priorityTree item }) := by
    simp only [PriorityExpiryCache.get, hmem]
    rw [if_pos hunexp]
  have hmrw : PriorityExpiryCache.markMostRecentlyUsed c.priorityTree item =
      treeReplace c.priorityTree item.priority
        ((g.eraseP (fun x => x.key == item.key)) ++ [item]) := by
    unfold PriorityExpiryCache.markMostRecentlyUsed
    rw [hfind]
  rw [hstep]
  refine ⟨rfl, rfl, rfl, rfl, rfl, rfl, ?_, ?_, ?_⟩
  · simp only
    rw [hmrw]
    obtain ⟨t₁, t₂, heq, hne1, hrep⟩ := treeReplace_decomp _ hfind
    rw [hrep, heq]
    simp
  · simp only
    rw [hmrw]
    exact treeFindKey_treeReplace_self hfind
  · intro k2 hk2
    simp only
    rw [hmrw]
    exact treeFindKey_treeReplace_ne hk2

/-- C9: updating a key that is already present never evicts another entry,
even at full capacity: the update path deletes and re-adds only that key,
bypassing the capacity check, so every other key's table entry — value,
priority and expiration included — is untouched and the count is
unchanged. -/
theorem set_update_no_evict {T : Type} {c : PriorityExpiryCache T} {key : String}
    {old : Item T} (value : T) (priority expireTime : Int)
    (hreach : Reachable c)
    (hmem : mapGet c.items key = some old) :
    c.set key value priority expireTime =
      (c.deleteItem old).addItem key value priority expireTime ∧
    (∀ key2 : String, key2 ≠ key →
      mapGet (c.set key value priority expireTime).items key2 = mapGet c.items key2) ∧
    (c.set key value priority expireTime).numItems = c.numItems := by
  have w := hreach.cacheWF
  have hik : old.key = key := w.item_key (key, old) (mapGet_some_mem hmem)
  have hstep : c.set key value priority expireTime =
      (c.deleteItem old).addItem key value priority expireTime := by
    simp only [PriorityExpiryCache.set, hmem]
  refine ⟨hstep, ?_, ?_⟩
  · intro key2 h2
    rw [hstep]
    simp only [PriorityExpiryCache.addItem, PriorityExpiryCache.deleteItem]
    rw [mapGet_append_single_ne h2]
    exact mapGet_filter_ne _ (by rw [hik]; exact h2)
  · rw [hstep]
    simp only [PriorityExpiryCache.addItem, PriorityExpiryCache.deleteItem]
    omega

theorem updatePrio_getLast {T : Type} (t : GroupTree T) (item : Item T) :
    ∃ g', treeFindKey (PriorityExpiryCache.updatePriorityTreeAndLinkedListForPriority t item)
        item.priority = some g' ∧ g'.getLast? = some item := by
  cases hfind : treeFindKey t item.priority with
  | none =>
    refine ⟨[item], ?_, rfl⟩
    simp only [PriorityExpiryCache.updatePriorityTreeAndLinkedListForPriority, hfind]
    exact treeFindKey_treeInsert_self hfind
  | some g =>
    refine ⟨g ++ [item], ?_, List.getLast?_concat _⟩
    simp only [PriorityExpiryCache.updatePriorityTreeAndLinkedListForPriority, hfind]
    exact treeFindKey_treeReplace_self hfind

/-- C6: `set` on a key that is already present always succeeds with replace
semantics: afterwards the table maps the key to a fresh entry with the new
value, priority and expiration; that fresh entry sits at the MRU tail of
its (possibly new) priority group; the key occurs in each index only as the
fresh entry (the old entry is fully detached); the clock is untouched; and
a subsequent unexpired `get` of the key returns the new value. -/
theorem set_update_replaces {T : Type} {c : PriorityExpiryCache T} {key : String}
    {old : Item T} (value : T) (priority expireTime : Int)
    (hreach : Reachable c)
    (hmem : mapGet c.items key = some old) :
    mapGet (c.set key value priority expireTime).items key =
      some ⟨key, value, expireTime, priority⟩ ∧
    (∃ g', treeFindKey (c.set key value priority expireTime).priorityTree priority =
        some g' ∧ g'.getLast? = some ⟨key, value, expireTime, priority⟩) ∧
    (∀ p ∈ (c.set key value priority expireTime).priorityTree, ∀ x ∈ p.2, x.key = key →
      (p.1 = priority ∧ x = ⟨key, value, expireTime, priority⟩)) ∧
    (∀ p ∈ (c.set key value priority expireTime).expTree, ∀ x ∈ p.2, x.key = key →
      (p.1 = expireTime ∧ x = ⟨key, value, expireTime, priority⟩)) ∧
    (c.set key value priority expireTime).mockTime = c.mockTime ∧
    (c.mockTime < expireTime →
      (PriorityExpiryCache.get (c.set key value priority expireTime) key).1 = some value) := by
  have w := hreach.cacheWF
  have hreach' : Reachable (c.set key value priority expireTime) :=
    hreach.stepOp (Op.set key value priority expireTime)
  have w' := hreach'.cacheWF
  have hik : old.key = key := w.item_key (key, old) (mapGet_some_mem hmem)
  have hstep : c.set key value priority expireTime =
      (c.deleteItem old).addItem key value priority expireTime := by
    simp only [PriorityExpiryCache.set, hmem]
  have hfresh1 : mapGet (c.deleteItem old).items key = none := by
    rw [PriorityExpiryCache.deleteItem]
    simp only
    rw [← hik]
    exact mapGet_filter_self _ _
  have hget1 : mapGet (c.set key value priority expireTime).items key =
      some ⟨key, value, expireTime, priority⟩ := by
    rw [hstep]
    rw [PriorityExpiryCache.addItem]
    simp only
    exact mapGet_append_single_self hfresh1
  have hmock : (c.set key value priority expireTime).mockTime = c.mockTime := by
    rw [hstep]
    simp [PriorityExpiryCache.addItem, PriorityExpiryCache.deleteItem]
  refine ⟨hget1, ?_, ?_, ?_, hmock, ?_⟩
  · rw [hstep]
    rw [PriorityExpiryCache.addItem]
    simp only
    exact updatePrio_getLast _ _
  · intro p hp x hx hxk
    have hxmap := w'.prioWF.member_mapGet p hp x hx
    rw [hxk, hget1] at hxmap
    have hxeq : x = ⟨key, value, expireTime, priority⟩ := by
      injection hxmap.symm
    have hpk := w'.prioWF.member_key p hp x hx
    rw [hxeq] at hpk
    exact ⟨hpk.symm, hxeq⟩
  · intro p hp x hx hxk
    have hxmap := w'.expWF.member_mapGet p hp x hx
    rw [hxk, hget1] at hxmap
    have hxeq : x = ⟨key, value, expireTime, priority⟩ := by
      injection hxmap.symm
    have hpk := w'.expWF.member_key p hp x hx
    rw [hxeq] at hpk
    exact ⟨hpk.symm, hxeq⟩
  · intro htime
    simp only [PriorityExpiryCache.get, hget1]
    rw [if_pos (by rw [hmock]; exact htime)]

/-- C7 (amended): neither of the claim's two options is what the source
does.  Construction with `maxCapacity = 0` is not rejected (the constructor
stores the value without validation), and `set` on the fresh zero-capacity
cache, finding nothing to evict, still inserts the new entry: the cache is
left holding one entry, violating the capacity bound rather than staying
empty. -/
theorem set_at_zero_capacity_inserts {T : Type} (key : String) (value : T)
    (priority expireTime : Int) :
    (PriorityExpiryCache.create T 0).maxItems = 0 ∧
    ((PriorityExpiryCache.create T 0).set key value priority expireTime).items =
      [(key, ⟨key, value, expireTime, priority⟩)] ∧
    ((PriorityExpiryCache.create T 0).set key value priority expireTime).numItems = 1 := by
  refine ⟨rfl, ?_, rfl⟩
  rfl

/-- C7 as stated is false on the code at the concrete input
`maxCapacity = 0`, `set("A", 1, 15, 100)`: construction yields a usable
cache with capacity `0` (no rejection), yet the `set` call does not leave
the cache empty — it inserts, so one entry is present afterwards. -/
theorem zero_capacity_claim_false :
    (PriorityExpiryCache.create Int 0).maxItems = 0 ∧
    ((PriorityExpiryCache.create Int 0).set "A" 1 15 100).items ≠ [] ∧
    ((PriorityExpiryCache.create Int 0).set "A" 1 15 100).numItems = 1 := by
  refine ⟨rfl, ?_, rfl⟩
  decide

/-! ### Concrete runs used by the witnesses -/

/-- Capacity 2; A(prio 15, exp 100) and B(prio 5, exp 103); clock advanced
to 100, so A is expired. -/
def witnessOpsA : List (Op Int) :=
  [Op.set "A" 1 15 100, Op.set "B" 2 5 103, Op.setMockTime 100]

def witnessCacheA : PriorityExpiryCache Int :=
  runOps (PriorityExpiryCache.create Int 2) witnessOpsA

/-- Capacity 2; A(prio 15, exp 100) and B(prio 5, exp 103); clock at 50, so
nothing is expired. -/
def witnessOpsB : List (Op Int) :=
  [Op.set "A" 1 15 100, Op.set "B" 2 5 103, Op.setMockTime 50]

def witnessCacheB : PriorityExpiryCache Int :=
  runOps (PriorityExpiryCache.create Int 2) witnessOpsB

theorem set_evicts_expired_first_witness :
    (Reachable witnessCacheA ∧
      mapGet witnessCacheA.items "C" = none ∧
      witnessCacheA.maxItems ≤ witnessCacheA.numItems ∧
      (∃ q ∈ witnessCacheA.items, q.2.expTime ≤ witnessCacheA.mockTime)) ∧
    (∃ victim : Item Int,
      PriorityExpiryCache.evictSelect witnessCacheA = some victim ∧
      victim.expTime ≤ witnessCacheA.mockTime ∧
      mapGet witnessCacheA.items victim.key = some victim ∧
      witnessCacheA.set "C" 3 5 110 =
        (witnessCacheA.deleteItem victim).addItem "C" 3 5 110) :=
  ⟨⟨⟨2, witnessOpsA, rfl⟩, by decide, by decide, by decide⟩,
    set_evicts_expired_first "C" 3 5 110 ⟨2, witnessOpsA, rfl⟩
      (by decide) (by decide) (by decide)⟩

theorem set_evicts_min_priority_lru_witness :
    (Reachable witnessCacheB ∧
      mapGet witnessCacheB.items "C" = none ∧
      witnessCacheB.maxItems ≤ witnessCacheB.numItems ∧
      witnessCacheB.items ≠ [] ∧
      (∀ q ∈ witnessCacheB.items, witnessCacheB.mockTime < q.2.expTime)) ∧
    (∃ (victim : Item Int) (g : List (Item Int)),
      PriorityExpiryCache.evictSelect witnessCacheB = some victim ∧
      mapGet witnessCacheB.items victim.key = some victim ∧
      (∀ q ∈ witnessCacheB.items, victim.priority ≤ q.2.priority) ∧
      treeFindKey witnessCacheB.priorityTree victim.priority = some g ∧
      g.head? = some victim ∧
      witnessCacheB.set "C" 3 7 110 =
        (witnessCacheB.deleteItem victim).addItem "C" 3 7 110) :=
  ⟨⟨⟨2, witnessOpsB, rfl⟩, by decide, by decide, by decide, by decide⟩,
    set_evicts_min_priority_lru "C" 3 7 110 ⟨2, witnessOpsB, rfl⟩
      (by decide) (by decide) (by decide) (by decide)⟩

theorem capacity_invariant_witness :
    ((1:Int) ≤ 2) ∧
    (runOps (PriorityExpiryCache.create Int 2) witnessOpsA).numItems ≤ 2 :=
  ⟨by decide, capacity_invariant 2 (by decide) witnessOpsA⟩

theorem consistency_invariant_witness :
    Reachable witnessCacheA ∧
    (witnessCacheA.numItems = (witnessCacheA.items.length : Int) ∧
      witnessCacheA.numItems =
        (((witnessCacheA.expTree.map (fun p => p.2.length)).sum : Nat) : Int) ∧
      witnessCacheA.numItems =
        (((witnessCacheA.priorityTree.map (fun p => p.2.length)).sum : Nat) : Int)) :=
  ⟨⟨2, witnessOpsA, rfl⟩, consistency_invariant ⟨2, witnessOpsA, rfl⟩⟩

theorem get_expired_is_absent_witness :
    (mapGet witnessCacheA.items "A" = some ⟨"A", 1, 100, 15⟩ ∧
      (⟨"A", 1, 100, 15⟩ : Item Int).expTime ≤ witnessCacheA.mockTime) ∧
    ((PriorityExpiryCache.get witnessCacheA "A").1 = none ∧
      (PriorityExpiryCache.get witnessCacheA "A").2.numItems = witnessCacheA.numItems ∧
      (PriorityExpiryCache.get witnessCacheA "A").2.items = witnessCacheA.items ∧
      (PriorityExpiryCache.get witnessCacheA "A").2.expTree = witnessCacheA.expTree ∧
      (PriorityExpiryCache.get witnessCacheA "A").2.priorityTree =
        witnessCacheA.priorityTree ∧
      (∀ key2 : String, mapGet witnessCacheA.items key2 = none →
        PriorityExpiryCache.get witnessCacheA "A" =
          PriorityExpiryCache.get witnessCacheA key2)) :=
  ⟨⟨by decide, by decide⟩,
    @get_expired_is_absent Int witnessCacheA "A" ⟨"A", 1, 100, 15⟩ (by decide) (by decide)⟩

theorem get_expired_leaves_state_witness :
    (mapGet witnessCacheA.items "A" = some ⟨"A", 1, 100, 15⟩ ∧
      (⟨"A", 1, 100, 15⟩ : Item Int).expTime ≤ witnessCacheA.mockTime) ∧
    ((PriorityExpiryCache.get witnessCacheA "A").2 = witnessCacheA ∧
      (PriorityExpiryCache.get witnessCacheA "A").1 = none) :=
  ⟨⟨by decide, by decide⟩,
    @get_expired_leaves_state Int witnessCacheA "A" ⟨"A", 1, 100, 15⟩ (by decide) (by decide)⟩

theorem set_update_replaces_witness :
    (Reachable witnessCacheB ∧
      mapGet witnessCacheB.items "A" = some ⟨"A", 1, 100, 15⟩) ∧
    (mapGet (witnessCacheB.set "A" 9 7 200).items "A" = some ⟨"A", 9, 200, 7⟩ ∧
      (∃ g', treeFindKey (witnessCacheB.set "A" 9 7 200).priorityTree 7 = some g' ∧
        g'.getLast? = some ⟨"A", 9, 200, 7⟩) ∧
      (∀ p ∈ (witnessCacheB.set "A" 9 7 200).priorityTree, ∀ x ∈ p.2, x.key = "A" →
        (p.1 = 7 ∧ x = ⟨"A", 9, 200, 7⟩)) ∧
      (∀ p ∈ (witnessCacheB.set "A" 9 7 200).expTree, ∀ x ∈ p.2, x.key = "A" →
        (p.1 = 200 ∧ x = ⟨"A", 9, 200, 7⟩)) ∧
      (witnessCacheB.set "A" 9 7 200).mockTime = witnessCacheB.mockTime ∧
      (witnessCacheB.mockTime < 200 →
        (PriorityExpiryCache.get (witnessCacheB.set "A" 9 7 200) "A").1 = some 9)) :=
  ⟨⟨⟨2, witnessOpsB, rfl⟩, by decide⟩,
    @set_update_replaces Int witnessCacheB "A" ⟨"A", 1, 100, 15⟩ 9 7 200
      ⟨2, witnessOpsB, rfl⟩ (by decide)⟩

theorem get_unexpired_touches_witness :
    (mapGet witnessCacheB.items "A" = some ⟨"A", 1, 100, 15⟩ ∧
      witnessCacheB.mockTime < 100 ∧
      treeFindKey witnessCacheB.priorityTree 15 = some [⟨"A", 1, 100, 15⟩]) ∧
    ((PriorityExpiryCache.get witnessCacheB "A").1 = some 1 ∧
      (PriorityExpiryCache.get witnessCacheB "A").2.items = witnessCacheB.items ∧
      (PriorityExpiryCache.get witnessCacheB "A").2.numItems = witnessCacheB.numItems ∧
      (PriorityExpiryCache.get witnessCacheB "A").2.expTree = witnessCacheB.expTree ∧
      (PriorityExpiryCache.get witnessCacheB "A").2.mockTime = witnessCacheB.mockTime ∧
      (PriorityExpiryCache.get witnessCacheB "A").2.maxItems = witnessCacheB.maxItems ∧
      (PriorityExpiryCache.get witnessCacheB "A").2.priorityTree.map Prod.fst =
        witnessCacheB.priorityTree.map Prod.fst ∧
      treeFindKey (PriorityExpiryCache.get witnessCacheB "A").2.priorityTree 15 =
        some ((([⟨"A", 1, 100, 15⟩] : List (Item Int)).eraseP
          (fun x => x.key == "A")) ++ [⟨"A", 1, 100, 15⟩]) ∧
      (∀ k2 : Int, k2 ≠ 15 →
        treeFindKey (PriorityExpiryCache.get witnessCacheB "A").2.priorityTree k2 =
          treeFindKey witnessCacheB.priorityTree k2)) :=
  ⟨⟨by decide, by decide, by decide⟩,
    @get_unexpired_touches Int witnessCacheB "A" ⟨"A", 1, 100, 15⟩ [⟨"A", 1, 100, 15⟩]
      (by decide) (by decide) (by decide)⟩

theorem set_update_no_evict_witness :
    (Reachable witnessCacheA ∧
      mapGet witnessCacheA.items "A" = some ⟨"A", 1, 100, 15⟩) ∧
    (witnessCacheA.set "A" 9 7 200 =
      (witnessCacheA.deleteItem ⟨"A", 1, 100, 15⟩).addItem "A" 9 7 200 ∧
     (∀ key2 : String, key2 ≠ "A" →
       mapGet (witnessCacheA.set "A" 9 7 200).items key2 =
         mapGet witnessCacheA.items key2) ∧
     (witnessCacheA.set "A" 9 7 200).numItems = witnessCacheA.numItems) :=
  ⟨⟨⟨2, witnessOpsA, rfl⟩, by decide⟩,
    @set_update_no_evict Int witnessCacheA "A" ⟨"A", 1, 100, 15⟩ 9 7 200
      ⟨2, witnessOpsA, rfl⟩ (by decide)⟩
